import Mathlib

/-!
Verification of the UV-index fetch/merge pipeline (fetch_temis_forecast.py).

The script ingests a gridded TEMIS UV forecast and RIVM historical per-station
text feeds, normalizes both into one record shape, merges them with previously
persisted records under a composite uniqueness key, sorts chronologically, and
serializes to a flat text format.

This file is a shallow embedding of the pure core of that script:
  - find_nearest_grid_point   (grid nearest-neighbour resolution)
  - process_netcdf_data       (per-timestep record extraction; the netCDF
                               container is modelled as an abstract structure
                               of named, optionally-present arrays — the
                               binary reader itself is an external collaborator)
  - parse_existing_data_line  (text line parser)
  - fetch_and_process_rivm_historical_year, modelled from its post-download
    part reduce_year (lines → daily peak records); the download is transport
  - format_and_save_data      (merge + dedup + sort + serialize; file I/O is
                               modelled as an optional list of input lines and
                               an optional list of output lines)

Machine reals: the script compares and formats Python floats.  Decimal text is
modelled by exact rationals plus explicit not-a-number and infinity values
(Python float distinguishes these and its comparison operators treat NaN as
incomparable).  Rounding of a decimal literal to an IEEE double is not
modelled; no claim here depends on doubles collapsing two distinct decimal
literals.  Python int() and float() additionally accept underscores used as
digit-group separators, which the model carries through faithfully.
-/

/-! ## Python string helpers -/

/-- One token accumulator step of Python str.split() with no arguments:
split on runs of whitespace, never yielding empty tokens.  The second
argument is the reversed in-progress token. -/
def pySplitAux : List Char → List Char → List String
  | [], [] => []
  | [], acc => [String.mk acc.reverse]
  | c :: cs, acc =>
    if c.isWhitespace then
      match acc with
      | [] => pySplitAux cs []
      | _ => String.mk acc.reverse :: pySplitAux cs []
    else pySplitAux cs (c :: acc)

/-- Python str.split() with no arguments. -/
def pySplit (s : String) : List String := pySplitAux s.data []

/-- Python str.strip() with no arguments: drop leading and trailing
whitespace. -/
def pyStrip (s : String) : String :=
  String.mk (((s.data.dropWhile Char.isWhitespace).reverse.dropWhile Char.isWhitespace).reverse)

/-- Python str.startswith on plain strings. -/
def pyStartsWith (s pre : String) : Bool := pre.data.isPrefixOf s.data

/-- Python str.lower(), restricted to the ASCII case mapping used by the
header tokens the script compares against. -/
def pyLower (s : String) : String := String.mk (s.data.map Char.toLower)

/-- Python slicing s[a:b] for 0 ≤ a ≤ b: characters a, ..., min(b, len)-1. -/
def pySlice (s : String) (a b : Nat) : String :=
  String.mk ((s.data.drop a).take (b - a))

/-! ## Python int() and float() literal parsing -/

/-- Tail of a digit run in which an underscore must be followed by a digit
(Python allows underscores only between digits). -/
def digitRunTail : List Char → Bool
  | [] => true
  | '_' :: c :: cs => c.isDigit && digitRunTail cs
  | c :: cs => c.isDigit && digitRunTail cs

/-- A non-empty digit run that starts with a digit and allows single
underscores between digits. -/
def digitRun : List Char → Bool
  | [] => false
  | c :: cs => c.isDigit && digitRunTail cs

/-- Numeric value of a digit run once underscores are removed. -/
def digitsVal (cs : List Char) : Nat :=
  (cs.filter (fun c => c ≠ '_')).foldl (fun n c => n * 10 + (c.toNat - 48)) 0

/-- Python int(str): optional surrounding whitespace, optional sign, then a
digit run. -/
def pyParseInt (s : String) : Option Int :=
  match (pyStrip s).data with
  | '+' :: rest => if digitRun rest then some (digitsVal rest) else none
  | '-' :: rest => if digitRun rest then some (-(digitsVal rest : Int)) else none
  | rest => if digitRun rest then some (digitsVal rest) else none

/-- Value of a Python float: exact rational for finite literals, plus the
infinities and not-a-number, which float() also accepts as text. -/
inductive FloatVal where
  | nan : FloatVal
  | inf : FloatVal
  | ninf : FloatVal
  | fin : ℚ → FloatVal
deriving DecidableEq, Repr

/-- Split a character list at the first exponent marker e or E. -/
def splitAtExp : List Char → List Char × Option (List Char)
  | [] => ([], none)
  | c :: cs =>
    if c = 'e' ∨ c = 'E' then ([], some cs)
    else
      let r := splitAtExp cs
      (c :: r.1, r.2)

/-- Split a character list at the first decimal point. -/
def splitAtDot : List Char → List Char × Option (List Char)
  | [] => ([], none)
  | c :: cs =>
    if c = '.' then ([], some cs)
    else
      let r := splitAtDot cs
      (c :: r.1, r.2)

/-- Digit count of a run with underscores removed. -/
def digitsLen (cs : List Char) : Nat := (cs.filter (fun c => c ≠ '_')).length

/-- Parse the mantissa (before any exponent) of a Python float literal:
either digits, digits followed by a point and optional digits, or a point
followed by digits.  Returns its exact rational value. -/
def parseMantissa (cs : List Char) : Option ℚ :=
  match splitAtDot cs with
  | (intp, none) =>
    if digitRun intp then some ((digitsVal intp : ℚ)) else none
  | (intp, some fracp) =>
    if digitRun intp ∧ (fracp = [] ∨ digitRun fracp) then
      some ((digitsVal intp : ℚ) + (digitsVal fracp : ℚ) / (10 : ℚ) ^ digitsLen fracp)
    else if intp = [] ∧ digitRun fracp then
      some ((digitsVal fracp : ℚ) / (10 : ℚ) ^ digitsLen fracp)
    else none

/-- Parse an exponent part: optional sign then a digit run. -/
def parseExp (cs : List Char) : Option Int :=
  match cs with
  | '+' :: rest => if digitRun rest then some (digitsVal rest) else none
  | '-' :: rest => if digitRun rest then some (-(digitsVal rest : Int)) else none
  | rest => if digitRun rest then some (digitsVal rest) else none

/-- Scale a rational by a power of ten. -/
def scalePow10 (q : ℚ) (e : Int) : ℚ :=
  if 0 ≤ e then q * (10 : ℚ) ^ e.toNat else q / (10 : ℚ) ^ (-e).toNat

/-- Parse an unsigned Python float body: numeric literal, or the words
inf, infinity or nan, case-insensitively. -/
def pyParseFloatBody (cs : List Char) : Option FloatVal :=
  let low := cs.map Char.toLower
  if low = "inf".data ∨ low = "infinity".data then some .inf
  else if low = "nan".data then some .nan
  else
    match splitAtExp cs with
    | (mant, none) => (parseMantissa mant).map .fin
    | (mant, some ex) =>
      match parseMantissa mant, parseExp ex with
      | some m, some e => some (.fin (scalePow10 m e))
      | _, _ => none

/-- Negate a float value; the sign of a NaN is not observable here. -/
def negFloat : FloatVal → FloatVal
  | .nan => .nan
  | .inf => .ninf
  | .ninf => .inf
  | .fin q => .fin (-q)

/-- Python float(str): optional surrounding whitespace, optional sign, then
a float body (a numeric literal or inf/infinity/nan). -/
def pyParseFloat (s : String) : Option FloatVal :=
  match (pyStrip s).data with
  | '+' :: rest => pyParseFloatBody rest
  | '-' :: rest => (pyParseFloatBody rest).map negFloat
  | rest => pyParseFloatBody rest

/-- Python float comparison a > b.  NaN is incomparable: any comparison
involving it is false. -/
def gtF : FloatVal → FloatVal → Bool
  | .nan, _ => false
  | _, .nan => false
  | .inf, .inf => false
  | .inf, _ => true
  | .ninf, _ => false
  | .fin _, .inf => false
  | .fin _, .ninf => true
  | .fin a, .fin b => a > b

/-- Numeric order a ≤ b on float values as the specification reads it:
minus infinity below every finite value below plus infinity, NaN not a
number and hence below or equal to nothing. -/
def leNum : FloatVal → FloatVal → Bool
  | .nan, _ => false
  | _, .nan => false
  | .ninf, _ => true
  | _, .ninf => false
  | _, .inf => true
  | .inf, _ => false
  | .fin a, .fin b => a ≤ b

/-! ## Python datetime -/

/-- The fields datetime(year, month, day, hour, minute) stores; the pipeline
constructs seconds only as zero so they are omitted. -/
structure PyDateTime where
  year : Int
  month : Int
  day : Int
  hour : Int
  minute : Int
deriving DecidableEq, Repr

/-- Gregorian leap-year rule, as Python's calendar uses. -/
def isLeap (y : Int) : Bool := (y % 4 == 0 && y % 100 != 0) || y % 400 == 0

/-- Number of days in a month. -/
def daysInMonth (y m : Int) : Int :=
  if m = 2 then (if isLeap y then 29 else 28)
  else if m = 4 ∨ m = 6 ∨ m = 9 ∨ m = 11 then 30
  else 31

/-- The datetime constructor: validates every component (MINYEAR = 1,
MAXYEAR = 9999) and raises ValueError — here: returns none — when any is out
of range. -/
def mkDatetime (y mo d hh mi : Int) : Option PyDateTime :=
  if 1 ≤ y ∧ y ≤ 9999 ∧ 1 ≤ mo ∧ mo ≤ 12 ∧ 1 ≤ d ∧ d ≤ daysInMonth y mo ∧
     0 ≤ hh ∧ hh ≤ 23 ∧ 0 ≤ mi ∧ mi ≤ 59 then
    some ⟨y, mo, d, hh, mi⟩
  else none

/-- Python datetime comparison a ≤ b: lexicographic on the stored
components. -/
def dtLe (a b : PyDateTime) : Bool :=
  decide (a.year < b.year ∨ (a.year = b.year ∧
    (a.month < b.month ∨ (a.month = b.month ∧
      (a.day < b.day ∨ (a.day = b.day ∧
        (a.hour < b.hour ∨ (a.hour = b.hour ∧ a.minute ≤ b.minute))))))))

/-! ## The record shape -/

/-- The dict shape every pipeline stage constructs: the datetime object used
for sorting, the verbatim date and time tokens, the two numeric fields kept
as exact text, and the provenance code. -/
structure Record where
  date_obj : PyDateTime
  date_str : String
  time_str : String
  t_dec : String
  uvi_str : String
  inst_code : String
deriving DecidableEq, Repr

/-- Source tag given to the daily peak records reduced from RIVM historical
files. -/
def RIVM_HISTORICAL_INST_CODE : String := "RIVM_PEAK"

/-- The five fixed header lines of the output artifact. -/
def FILE_HEADER_LINES : List String :=
  ["# UV Index Data (TEMIS forecast & RIVM historical)",
   "# Data processed for De Bilt coordinates",
   "# Format: YYYYMMDD hhmm  T.dec   UVI InstCode",
   "# T.dec is a placeholder (0.0 for forecast), InstCode indicates source.",
   "YYYYMMDD hhmm  T.dec   UVI InstCode"]

/-! ## parse_existing_data_line -/

/-- The date/time validation of parse_existing_data_line: slice the date
token at 0:4, 4:6, 6:8 and the time token at 0:2, 2:4, convert each slice
with int(), and construct datetime(year, month, day, hour, minute). -/
def sliceDateTime (d t : String) : Option PyDateTime :=
  match pyParseInt (pySlice d 0 4), pyParseInt (pySlice d 4 6),
        pyParseInt (pySlice d 6 8), pyParseInt (pySlice t 0 2),
        pyParseInt (pySlice t 2 4) with
  | some y, some mo, some dd, some hh, some mi => mkDatetime y mo dd hh mi
  | _, _, _, _, _ => none

/-- parse_existing_data_line: split on whitespace, require at least four
tokens (date, time, T.dec, UVI, then an optional InstCode defaulting to
RIVM_HIST), validate date/time slices into a datetime and both numeric
fields with float(); any ValueError returns None. -/
def parse_existing_data_line (line : String) : Option Record :=
  match pySplit (pyStrip line) with
  | d :: t :: td :: uv :: rest =>
    let inst := rest.headD "RIVM_HIST"
    match sliceDateTime d t with
    | some dt =>
      match pyParseFloat uv, pyParseFloat td with
      | some _, some _ =>
        some { date_obj := dt, date_str := d, time_str := t,
               t_dec := td, uvi_str := uv, inst_code := inst }
      | _, _ => none
    | none => none
  | _ => none

/-- The line filter both callers apply before parsing, then the parse
itself: skip lines that are empty after stripping, start with the comment
marker, or start with the header token yyyymmdd case-insensitively. -/
def keptAndParsed (line : String) : Option Record :=
  let l := pyStrip line
  if l.data.isEmpty ∨ pyStartsWith l "#" ∨ pyStartsWith (pyLower l) "yyyymmdd" then none
  else parse_existing_data_line l

/-! ## Decimal rendering -/

/-- Decimal digit character for a value below ten. -/
def digitChar (n : Nat) : Char := Char.ofNat (48 + n)

/-- Decimal digits of a natural number, most significant first; the first
argument is recursion fuel, sufficient whenever it exceeds the digit
count. -/
def natDigitsAux : Nat → Nat → List Char
  | 0, _ => []
  | fuel + 1, n =>
    if n < 10 then [digitChar n]
    else natDigitsAux fuel (n / 10) ++ [digitChar (n % 10)]

/-- Decimal rendering of a natural number. -/
def natToStr (n : Nat) : String := String.mk (natDigitsAux (n + 1) n)

/-- Zero-padded decimal rendering to a minimum width, as strftime's %Y, %m,
%d, %H, %M produce. -/
def padNat (w n : Nat) : String :=
  let s := natToStr n
  String.mk (List.replicate (w - s.length) '0') ++ s

/-- strftime("%Y%m%d") on the dates the pipeline constructs. -/
def fmtYMD (dt : PyDateTime) : String :=
  padNat 4 dt.year.toNat ++ padNat 2 dt.month.toNat ++ padNat 2 dt.day.toNat

/-- strftime("%H%M") on the dates the pipeline constructs. -/
def fmtHM (dt : PyDateTime) : String :=
  padNat 2 dt.hour.toNat ++ padNat 2 dt.minute.toNat

/-- Round a rational to an integer, ties to even, as float formatting
rounds an exact value. -/
def roundHalfEven (x : ℚ) : Int :=
  let f : Int := Rat.floor x
  let r : ℚ := x - f
  if r < 1 / 2 then f
  else if 1 / 2 < r then f + 1
  else if f % 2 = 0 then f else f + 1

/-- Python format specifier .2f applied to the exact value: round to two
decimals half-to-even; a negative value keeps its sign even when the
rounded magnitude is zero. -/
def format2 (q : ℚ) : String :=
  let n : Int := roundHalfEven (q * 100)
  let m : Nat := n.natAbs
  (if q < 0 then "-" else "") ++ natToStr (m / 100) ++ "." ++ padNat 2 (m % 100)

/-! ## find_nearest_grid_point -/

/-- A latitude or longitude variable as numpy sees it: one-dimensional,
two-dimensional, or of some other rank. -/
inductive LatLonVar where
  | d1 : List ℚ → LatLonVar
  | d2 : List (List ℚ) → LatLonVar
  | other : LatLonVar

/-- Minimum value of a list, scanned left to right. -/
def minList : List ℚ → ℚ
  | [] => 0
  | x :: xs => xs.foldl min x

/-- numpy argmin over a flat list: index of the first occurrence of the
minimum value. -/
def argminList (l : List ℚ) : Nat := l.findIdx (fun v => v == minList l)

/-- Squared Euclidean distance in degree space between a cell and the
target. -/
def cellDist (la lo tla tlo : ℚ) : ℚ := (la - tla) ^ 2 + (lo - tlo) ^ 2

/-- The elementwise distance grid (lat_grid - t)**2 + (lon_grid - t)**2. -/
def distGrid (latg long : List (List ℚ)) (tla tlo : ℚ) : List (List ℚ) :=
  List.zipWith (fun lr orow => List.zipWith (fun a o => cellDist a o tla tlo) lr orow) latg long

/-- Flattened argmin plus unravel_index over the distance grid of two
two-dimensional coordinate arrays.  An empty grid makes argmin raise
ValueError, surfaced as none. -/
def nearestIn (latg long : List (List ℚ)) (tla tlo : ℚ) : Option (Nat × Nat) :=
  let dist := distGrid latg long tla tlo
  let flat := dist.flatten
  if flat.isEmpty then none
  else
    let cols := (dist.headD []).length
    let k := argminList flat
    some (k / cols, k % cols)

/-- The meshgrid expansion np.meshgrid(lons, lats): a latitude grid whose
row i is constantly lats[i]. -/
def meshLat (la lo : List ℚ) : List (List ℚ) := la.map (fun x => List.replicate lo.length x)

/-- The meshgrid expansion np.meshgrid(lons, lats): a longitude grid whose
every row is lons. -/
def meshLon (la lo : List ℚ) : List (List ℚ) := List.replicate la.length lo

/-- find_nearest_grid_point: expand one-dimensional coordinates through
meshgrid, require matching dimensionality otherwise (a mismatch raises
ValueError, surfaced as none), and take the row-major-first argmin of the
squared degree-space distance. -/
def find_nearest_grid_point (lats lons : LatLonVar) (tla tlo : ℚ) : Option (Nat × Nat) :=
  match lats, lons with
  | .d1 la, .d1 lo => nearestIn (meshLat la lo) (meshLon la lo) tla tlo
  | .d2 lg, .d2 og => nearestIn lg og tla tlo
  | _, _ => none

/-! ## process_netcdf_data -/

/-- One stored sample of the UV field: masked/fill, NaN, an infinity, or a
finite value. -/
inductive UVVal where
  | masked : UVVal
  | nanV : UVVal
  | infV : UVVal
  | ninfV : UVVal
  | fin : ℚ → UVVal
deriving DecidableEq, Repr

/-- The per-sample skip test of the extraction loop: masked, NaN, or not
finite. -/
def badSample : UVVal → Bool
  | .fin _ => false
  | _ => true

/-- The UV variable as numpy sees it: rank three [time, lat, lon], rank
four [time, band, lat, lon], or some other rank. -/
inductive UVField where
  | d3 : List (List (List UVVal)) → UVField
  | d4 : List (List (List (List UVVal))) → UVField
  | other : UVField

/-- The PRODUCT group of the forecast file, with each required variable
optionally present. -/
structure ProductGroup where
  latitude : Option LatLonVar
  longitude : Option LatLonVar
  uvi_clear : Option UVField
  date : Option (List Int)

/-- The opened netCDF file: optionally carries a PRODUCT group. -/
structure NCFile where
  product : Option ProductGroup

/-- Decode a packed YYYYMMDD integer with floor division and remainder and
construct datetime(year, month, day, 12, 0, 0). -/
def decodePackedDate (d : Int) : Option PyDateTime :=
  mkDatetime (Int.fdiv d 10000) (Int.fdiv (Int.emod d 10000) 100) (Int.emod d 100) 12 0

/-- Read the scalar sample for timestep i at the resolved cell: rank three
indexes [i, lat, lon]; rank four with leading dimension T indexes
[i, 0, lat, lon]; anything else is the unexpected-dimensions error path.
An out-of-range index raises, surfaced as none. -/
def uvLookup (uv : UVField) (T lat_idx lon_idx i : Nat) : Option UVVal :=
  match uv with
  | .d3 a => a[i]?.bind (fun plane => plane[lat_idx]?.bind (fun row => row[lon_idx]?))
  | .d4 a =>
    if a.length = T then
      a[i]?.bind (fun bands => bands[0]?.bind (fun plane =>
        plane[lat_idx]?.bind (fun row => row[lon_idx]?)))
    else none
  | .other => none

/-- The record the extraction loop appends for a valid sample. -/
def mkForecastRecord (dt : PyDateTime) (q : ℚ) : Record :=
  { date_obj := dt, date_str := fmtYMD dt, time_str := fmtHM dt,
    t_dec := "0.0", uvi_str := format2 q, inst_code := "TEMIS_FCST" }

/-- Result of one iteration of the extraction loop: a fatal return of None,
a silent skip, or one emitted record. -/
inductive StepResult where
  | fatal : StepResult
  | skip : StepResult
  | emit : Record → StepResult
deriving DecidableEq

/-- One iteration of the extraction loop over timestep i with packed date
d: decode the date (a ValueError from datetime is caught by the enclosing
handler, making the whole call return None), read the sample, skip bad
samples, emit one record otherwise. -/
def processTimestep (uv : UVField) (T lat_idx lon_idx i : Nat) (d : Int) : StepResult :=
  match decodePackedDate d with
  | none => .fatal
  | some dt =>
    match uvLookup uv T lat_idx lon_idx i with
    | none => .fatal
    | some v =>
      match v with
      | .fin q => .emit (mkForecastRecord dt q)
      | _ => if badSample v then .skip else .fatal

/-- The extraction loop over the date variable, with the running timestep
index; a fatal step makes the whole call return None. -/
def processAll (uv : UVField) (T lat_idx lon_idx : Nat) : List Int → Nat → Option (List Record)
  | [], _ => some []
  | d :: ds, i =>
    match processTimestep uv T lat_idx lon_idx i d with
    | .fatal => none
    | .skip => processAll uv T lat_idx lon_idx ds (i + 1)
    | .emit r => (processAll uv T lat_idx lon_idx ds (i + 1)).map (r :: ·)

/-- process_netcdf_data on an opened file: require the PRODUCT group and
the four named variables (a missing one returns None), resolve the nearest
cell, then run the extraction loop. -/
def process_netcdf_data (f : NCFile) (tla tlo : ℚ) : Option (List Record) :=
  match f.product with
  | none => none
  | some pg =>
    match pg.latitude, pg.longitude, pg.uvi_clear, pg.date with
    | some lats, some lons, some uv, some dates =>
      match find_nearest_grid_point lats lons tla tlo with
      | none => none
      | some (lat_idx, lon_idx) => processAll uv dates.length lat_idx lon_idx dates 0
    | _, _, _, _ => none

/-! ## fetch_and_process_rivm_historical_year: the reduction -/

/-- Append a parsed record to its day group in the insertion-ordered dict
all_daily_entries, creating the group at the end on first sight of the
key. -/
def insertGroup : List (String × List Record) → String → Record → List (String × List Record)
  | [], k, r => [(k, [r])]
  | (k0, rs) :: gs, k, r =>
    if k0 = k then (k0, rs ++ [r]) :: gs else (k0, rs) :: insertGroup gs k r

/-- The grouping loop: keep lines that pass the comment/header filter and
parse, grouped by their date token in insertion order. -/
def groupByDay (lines : List String) : List (String × List Record) :=
  lines.foldl (fun groups line =>
    match keptAndParsed line with
    | none => groups
    | some r => insertGroup groups r.date_str r) []

/-- The scan inside Python max(iterable, key=...): keep the current best,
replace it when a later key compares strictly greater. -/
def pyMaxByAux (key : Record → FloatVal) (best : Record) : List Record → Record
  | [] => best
  | x :: xs => if gtF (key x) (key best) then pyMaxByAux key x xs else pyMaxByAux key best xs

/-- max(entries, key=lambda r: float(r.uvi_str)): none when the sequence is
empty or any key raises ValueError — the reduction skips that day with a
warning. -/
def pyMaxByFloat (entries : List Record) : Option Record :=
  match entries with
  | [] => none
  | x :: xs =>
    match (x :: xs).mapM (fun r => pyParseFloat r.uvi_str) with
    | none => none
    | some _ => some (pyMaxByAux (fun r => (pyParseFloat r.uvi_str).getD .nan) x xs)

/-- Reduce one day group to its peak entry, relabelled with the historical
peak source tag and otherwise field-for-field identical. -/
def reduceDay (entries : List Record) : Option Record :=
  match pyMaxByFloat entries with
  | none => none
  | some peak => some { peak with inst_code := RIVM_HISTORICAL_INST_CODE }

/-- The per-year reduction of fetch_and_process_rivm_historical_year after
the download: group parsed lines by day, then emit one relabelled peak
record per day group, in insertion order of the day keys. -/
def reduce_year (lines : List String) : List Record :=
  (groupByDay lines).filterMap (fun g => reduceDay g.2)

/-! ## format_and_save_data -/

/-- The deduplication key: the concatenation of the date token, time token
and source tag, with no separator. -/
def recordKey (r : Record) : String := r.date_str ++ r.time_str ++ r.inst_code

/-- One step of the shared uniqueness check: append the record and record
its key unless the key was already processed. -/
def addUnique (st : List Record × List String) (r : Record) : List Record × List String :=
  if st.2.contains (recordKey r) then st else (st.1 ++ [r], recordKey r :: st.2)

/-- The two merge loops of format_and_save_data share one processed_keys
set; loading the parsed existing records and then the new records is one
first-wins pass over their concatenation. -/
def mergeDedup (rs : List Record) : List Record := (rs.foldl addUnique ([], [])).1

/-- Record comparison used by the sort phase: by the stored datetime. -/
def recordLe (a b : Record) : Bool := dtLe a.date_obj b.date_obj

/-- The merged, deduplicated collection before sorting: existing lines are
filtered and parsed first, then the new records are appended, first key
occurrence winning throughout. -/
def mergedPreSort (existing : Option (List String)) (data_to_add : List Record) : List Record :=
  mergeDedup ((existing.getD []).filterMap keptAndParsed ++ data_to_add)

/-- The final ordered collection format_and_save_data writes: the stable
sort of the merged collection by datetime. -/
def mergedAll (existing : Option (List String)) (data_to_add : List Record) : List Record :=
  (mergedPreSort existing data_to_add).mergeSort recordLe

/-- One output line per record: date, space, time, two spaces, T.dec,
three spaces, UVI, space, InstCode. -/
def formatRecordLine (r : Record) : String :=
  r.date_str ++ " " ++ r.time_str ++ "  " ++ r.t_dec ++ "   " ++ r.uvi_str ++ " " ++ r.inst_code

/-- format_and_save_data: merge the optional existing file content (none
models a missing file) with the new records; when the merged collection is
empty return without writing (none); otherwise write the five header lines
followed by one formatted line per sorted record. -/
def format_and_save_data (data_to_add : List Record) (existing : Option (List String)) :
    Option (List String) :=
  let merged := mergedPreSort existing data_to_add
  if merged.isEmpty then none
  else some (FILE_HEADER_LINES ++ (merged.mergeSort recordLe).map formatRecordLine)

/-! ## Order lemmas -/

theorem dtLe_refl (a : PyDateTime) : dtLe a a = true := by
  simp [dtLe]

theorem dtLe_trans (a b c : PyDateTime) (h1 : dtLe a b = true) (h2 : dtLe b c = true) :
    dtLe a c = true := by
  simp only [dtLe, decide_eq_true_eq] at h1 h2 ⊢
  omega

theorem dtLe_total (a b : PyDateTime) : (dtLe a b || dtLe b a) = true := by
  simp only [dtLe, Bool.or_eq_true, decide_eq_true_eq]
  omega

theorem recordLe_trans (a b c : Record) (h1 : recordLe a b = true) (h2 : recordLe b c = true) :
    recordLe a c = true := dtLe_trans _ _ _ h1 h2

theorem recordLe_total (a b : Record) : (recordLe a b || recordLe b a) = true :=
  dtLe_total _ _

/-! ## C9: empty merge is a no-op -/

/-- C9.  When format_and_save_data is given no existing data and no new
records, the merged collection is empty and the function returns without
producing any output: the result is none, modelling that no file is
written, and this is a normal return, not a failure. -/
theorem C9_empty_merge_no_output : format_and_save_data [] none = none := rfl

/-! ## C10: the deduplication key -/

theorem recordKey_data (r : Record) :
    (recordKey r).data = r.date_str.data ++ r.time_str.data ++ r.inst_code.data := by
  simp [recordKey, String.data_append]

/-- Concatenation of fixed-width pieces is injective piecewise. -/
theorem append3_inj {a1 b1 c1 a2 b2 c2 : List Char}
    (h : a1 ++ b1 ++ c1 = a2 ++ b2 ++ c2) (ha : a1.length = a2.length)
    (hb : b1.length = b2.length) : a1 = a2 ∧ b1 = b2 ∧ c1 = c2 := by
  rw [List.append_assoc, List.append_assoc] at h
  obtain ⟨h1, h2⟩ := List.append_inj h ha
  obtain ⟨h3, h4⟩ := List.append_inj h2 hb
  exact ⟨h1, h3, h4⟩

/-- C10.  The deduplication key of format_and_save_data is the separator
free concatenation date ++ time ++ source tag.  For records whose date
token has exactly 8 characters and whose time token has exactly 4, two
keys agree exactly when the (date, time, source tag) triples agree; the
fixed-width precondition is not automatic, because the parser stores
tokens verbatim and accepts other widths: two concrete parseable lines
with different date tokens produce the same key. -/
theorem C10_dedup_key_injectivity :
    (∀ r1 r2 : Record, r1.date_str.length = 8 → r1.time_str.length = 4 →
      r2.date_str.length = 8 → r2.time_str.length = 4 →
      (recordKey r1 = recordKey r2 ↔
        (r1.date_str = r2.date_str ∧ r1.time_str = r2.time_str ∧ r1.inst_code = r2.inst_code))) ∧
    (∃ r1 r2 : Record,
      parse_existing_data_line "202301011 200 0.0 1.0 X" = some r1 ∧
      parse_existing_data_line "20230101 1200 0.0 1.0 X" = some r2 ∧
      recordKey r1 = recordKey r2 ∧ r1.date_str ≠ r2.date_str) := by
  constructor
  · intro r1 r2 hd1 ht1 hd2 ht2
    constructor
    · intro h
      have hdata := congrArg String.data h
      rw [recordKey_data, recordKey_data] at hdata
      have hlen1 : r1.date_str.data.length = r2.date_str.data.length := by
        have e1 : r1.date_str.data.length = r1.date_str.length := rfl
        have e2 : r2.date_str.data.length = r2.date_str.length := rfl
        rw [e1, e2, hd1, hd2]
      have hlen2 : r1.time_str.data.length = r2.time_str.data.length := by
        have e1 : r1.time_str.data.length = r1.time_str.length := rfl
        have e2 : r2.time_str.data.length = r2.time_str.length := rfl
        rw [e1, e2, ht1, ht2]
      obtain ⟨h1, h2, h3⟩ := append3_inj hdata hlen1 hlen2
      exact ⟨String.ext h1, String.ext h2, String.ext h3⟩
    · rintro ⟨h1, h2, h3⟩
      simp [recordKey, h1, h2, h3]
  · refine ⟨⟨⟨2023, 1, 1, 20, 0⟩, "202301011", "200", "0.0", "1.0", "X"⟩,
      ⟨⟨2023, 1, 1, 12, 0⟩, "20230101", "1200", "0.0", "1.0", "X"⟩, ?_, ?_, ?_, ?_⟩
    · set_option maxRecDepth 40000 in with_unfolding_all decide
    · set_option maxRecDepth 40000 in with_unfolding_all decide
    · with_unfolding_all decide
    · with_unfolding_all decide

/-- Witness for C10: the fixed-width direction applied to two concrete
parsed-shape records, one key collision decided concretely. -/
theorem C10_dedup_key_injectivity_witness :
    recordKey ⟨⟨2023, 6, 1, 10, 0⟩, "20230601", "1000", "0.0", "2.1", "RIVM_HIST"⟩ =
      recordKey ⟨⟨2023, 6, 1, 10, 0⟩, "20230601", "1000", "7.7", "9.9", "RIVM_HIST"⟩ := by
  have h := (C10_dedup_key_injectivity.1
    ⟨⟨2023, 6, 1, 10, 0⟩, "20230601", "1000", "0.0", "2.1", "RIVM_HIST"⟩
    ⟨⟨2023, 6, 1, 10, 0⟩, "20230601", "1000", "7.7", "9.9", "RIVM_HIST"⟩
    rfl rfl rfl rfl).mpr ⟨rfl, rfl, rfl⟩
  exact h

/-! ## C5: the line parser's acceptance condition -/

/-- C5, counterexample to the claim as stated.  The parser validates T.dec
and UVI with float(), which accepts negative values, infinities and NaN:
each of these three lines yields a record even though its UVI is not a
non-negative finite decimal. -/
theorem C5_counterexample :
    (parse_existing_data_line "20230101 1200 0.0 -1.0").isSome = true ∧
    pyParseFloat "-1.0" = some (.fin (-1)) ∧ ((-1 : ℚ) < 0) ∧
    (parse_existing_data_line "20230101 1200 0.0 inf").isSome = true ∧
    pyParseFloat "inf" = some .inf ∧
    (parse_existing_data_line "20230101 1200 0.0 nan").isSome = true ∧
    pyParseFloat "nan" = some .nan := by
  set_option maxRecDepth 200000 in with_unfolding_all decide

/-- C5 as amended.  The parser returns a record exactly when the line has
at least four whitespace tokens, the date and time slices convert to
integers forming a constructible datetime, and both T.dec and UVI parse
with float() — which accepts any Python float literal, including
negative, infinite and NaN values, not only non-negative finite decimals;
on any validation failure it returns null rather than raising. -/
theorem C5_parser_acceptance (line : String) :
    (parse_existing_data_line line).isSome ↔
      ∃ d t td uv rest, pySplit (pyStrip line) = d :: t :: td :: uv :: rest ∧
        (sliceDateTime d t).isSome ∧ (pyParseFloat td).isSome ∧ (pyParseFloat uv).isSome := by
  rw [parse_existing_data_line.eq_def]
  constructor
  · intro h
    match hs : pySplit (pyStrip line) with
    | [] => rw [hs] at h; simp at h
    | [d] => rw [hs] at h; simp at h
    | [d, t] => rw [hs] at h; simp at h
    | [d, t, td] => rw [hs] at h; simp at h
    | d :: t :: td :: uv :: rest =>
      rw [hs] at h
      dsimp only at h
      refine ⟨d, t, td, uv, rest, rfl, ?_, ?_, ?_⟩ <;>
      · match hdt : sliceDateTime d t, huv : pyParseFloat uv, htd : pyParseFloat td with
        | some dt, some v1, some v2 => simp [hdt, huv, htd]
        | none, _, _ => rw [hdt] at h; simp at h
        | some dt, none, _ => rw [hdt] at h; dsimp only at h; rw [huv] at h; simp at h
        | some dt, some v1, none =>
          rw [hdt] at h; dsimp only at h; rw [huv, htd] at h; simp at h
  · rintro ⟨d, t, td, uv, rest, hs, hdt, htd, huv⟩
    rw [hs]
    obtain ⟨dt, hdt⟩ := Option.isSome_iff_exists.mp hdt
    obtain ⟨v1, htd⟩ := Option.isSome_iff_exists.mp htd
    obtain ⟨v2, huv⟩ := Option.isSome_iff_exists.mp huv
    simp [hdt, htd, huv]

/-! ## C8: serialized output layout -/

/-- C8.  Whenever format_and_save_data writes output, the output is
exactly the five fixed header lines followed by one line per merged
record in merged order, each line being date, one space, time, two
spaces, T.dec, three spaces, UVI, one space, source tag, every field
passed through verbatim from its stored text. -/
theorem C8_output_layout (data_to_add : List Record) (existing : Option (List String))
    (out : List String) (h : format_and_save_data data_to_add existing = some out) :
    out = FILE_HEADER_LINES ++ (mergedAll existing data_to_add).map (fun r =>
        r.date_str ++ " " ++ r.time_str ++ "  " ++ r.t_dec ++ "   " ++ r.uvi_str ++ " " ++ r.inst_code) ∧
    FILE_HEADER_LINES.length = 5 ∧ mergedPreSort existing data_to_add ≠ [] := by
  simp only [format_and_save_data] at h
  split at h
  next hempty => exact absurd h (by simp)
  next hempty =>
    refine ⟨?_, rfl, ?_⟩
    · exact (Option.some.inj h).symm.trans rfl
    · intro hc
      rw [hc] at hempty
      simp at hempty

/-- Witness for C8: one fresh forecast record, no existing file. -/
theorem C8_output_layout_witness :
    FILE_HEADER_LINES ++ ["20230601 1200  0.0   5.00 TEMIS_FCST"] =
      FILE_HEADER_LINES ++ (mergedAll none
          [⟨⟨2023, 6, 1, 12, 0⟩, "20230601", "1200", "0.0", "5.00", "TEMIS_FCST"⟩]).map (fun r =>
        r.date_str ++ " " ++ r.time_str ++ "  " ++ r.t_dec ++ "   " ++ r.uvi_str ++ " " ++ r.inst_code) ∧
    FILE_HEADER_LINES.length = 5 ∧
    mergedPreSort none [⟨⟨2023, 6, 1, 12, 0⟩, "20230601", "1200", "0.0", "5.00", "TEMIS_FCST"⟩] ≠ [] := by
  have hm : mergedPreSort none [⟨⟨2023, 6, 1, 12, 0⟩, "20230601", "1200", "0.0", "5.00", "TEMIS_FCST"⟩] =
      [⟨⟨2023, 6, 1, 12, 0⟩, "20230601", "1200", "0.0", "5.00", "TEMIS_FCST"⟩] := by
    set_option maxRecDepth 200000 in with_unfolding_all decide
  have h : format_and_save_data [⟨⟨2023, 6, 1, 12, 0⟩, "20230601", "1200", "0.0", "5.00", "TEMIS_FCST"⟩] none =
      some (FILE_HEADER_LINES ++ ["20230601 1200  0.0   5.00 TEMIS_FCST"]) := by
    simp only [format_and_save_data, hm, List.mergeSort_singleton]
    rfl
  exact C8_output_layout _ _ _ h

/-! ## C7: one timestep of the extraction loop -/

theorem decodePackedDate_fields (d : Int) (dt : PyDateTime)
    (h : decodePackedDate d = some dt) :
    dt.year = Int.fdiv d 10000 ∧ dt.month = Int.fdiv (Int.emod d 10000) 100 ∧
    dt.day = Int.emod d 100 ∧ dt.hour = 12 ∧ dt.minute = 0 := by
  simp only [decodePackedDate, mkDatetime] at h
  split at h
  · injection h with h2
    rw [← h2]
    exact ⟨rfl, rfl, rfl, rfl, rfl⟩
  · exact absurd h (by simp)

/-- C7.  For a timestep whose packed date decodes (year, month, day taken
by integer division and remainder) and whose cell sample is readable, the
loop skips the timestep — no record, no error — exactly when the sample is
masked, NaN or non-finite, and otherwise emits exactly one record with
the synthetic noon time 1200, T.dec 0.0, source tag TEMIS_FCST, and the
sample value formatted to two decimal places as UVI. -/
theorem C7_timestep_behaviour (uv : UVField) (T lat_idx lon_idx i : Nat) (d : Int)
    (dt : PyDateTime) (hdt : decodePackedDate d = some dt) (v : UVVal)
    (hv : uvLookup uv T lat_idx lon_idx i = some v) :
    dt.year = Int.fdiv d 10000 ∧ dt.month = Int.fdiv (Int.emod d 10000) 100 ∧
    dt.day = Int.emod d 100 ∧
    (badSample v = true → processTimestep uv T lat_idx lon_idx i d = .skip) ∧
    (∀ q : ℚ, v = .fin q → processTimestep uv T lat_idx lon_idx i d =
      .emit { date_obj := dt, date_str := fmtYMD dt, time_str := "1200",
              t_dec := "0.0", uvi_str := format2 q, inst_code := "TEMIS_FCST" }) := by
  obtain ⟨h1, h2, h3, h4, h5⟩ := decodePackedDate_fields d dt hdt
  refine ⟨h1, h2, h3, ?_, ?_⟩
  · intro hbad
    simp only [processTimestep, hdt, hv]
    match v, hbad with
    | .masked, _ => rfl
    | .nanV, _ => rfl
    | .infV, _ => rfl
    | .ninfV, _ => rfl
  · intro q hq
    subst hq
    simp only [processTimestep, hdt, hv]
    have hhm : fmtHM dt = "1200" := by
      simp only [fmtHM, h4, h5]
      rfl
    simp [mkForecastRecord, hhm]

/-- Witness for C7: a one-cell grid, one timestep, finite sample 3. -/
theorem C7_timestep_behaviour_witness :
    processTimestep (.d3 [[[.fin 3]]]) 1 0 0 0 20230601 =
      .emit { date_obj := ⟨2023, 6, 1, 12, 0⟩, date_str := fmtYMD ⟨2023, 6, 1, 12, 0⟩,
              time_str := "1200", t_dec := "0.0", uvi_str := format2 3,
              inst_code := "TEMIS_FCST" } :=
  (C7_timestep_behaviour (.d3 [[[.fin 3]]]) 1 0 0 0 20230601 ⟨2023, 6, 1, 12, 0⟩
    (by set_option maxRecDepth 200000 in with_unfolding_all decide) (.fin 3) rfl).2.2.2.2 3 rfl

/-! ## C1: first-wins deduplication -/

/-- Recursive restatement of the first-wins loop of format_and_save_data,
carrying the processed_keys set explicitly. -/
def dedupRec (seen : List String) : List Record → List Record
  | [] => []
  | r :: rs =>
    if seen.contains (recordKey r) then dedupRec seen rs
    else r :: dedupRec (recordKey r :: seen) rs

/-- The processed_keys set after the first-wins loop. -/
def dedupSeen (seen : List String) : List Record → List String
  | [] => seen
  | r :: rs =>
    if seen.contains (recordKey r) then dedupSeen seen rs
    else dedupSeen (recordKey r :: seen) rs

theorem foldl_addUnique (rs : List Record) (acc : List Record) (seen : List String) :
    rs.foldl addUnique (acc, seen) = (acc ++ dedupRec seen rs, dedupSeen seen rs) := by
  induction rs generalizing acc seen with
  | nil => simp [dedupRec, dedupSeen]
  | cons r rs ih =>
    simp only [List.foldl_cons, addUnique, dedupRec, dedupSeen]
    by_cases hc : seen.contains (recordKey r) = true
    · rw [if_pos hc, if_pos hc, if_pos hc]
      exact ih acc seen
    · rw [if_neg hc, if_neg hc, if_neg hc]
      rw [ih (acc ++ [r]) (recordKey r :: seen)]
      simp

theorem mergeDedup_eq_dedupRec (rs : List Record) : mergeDedup rs = dedupRec [] rs := by
  simp [mergeDedup, foldl_addUnique]

theorem dedupRec_filter_of_seen (rs : List Record) (seen : List String) (k : String)
    (h : seen.contains k = true) :
    (dedupRec seen rs).filter (fun r => recordKey r == k) = [] := by
  induction rs generalizing seen with
  | nil => rfl
  | cons r rs ih =>
    simp only [dedupRec]
    by_cases hc : seen.contains (recordKey r) = true
    · rw [if_pos hc]
      exact ih seen h
    · rw [if_neg hc]
      have hne : ¬(recordKey r == k) = true := by
        intro he
        exact hc ((beq_iff_eq.mp he) ▸ h)
      rw [@List.filter_cons_of_neg Record (fun x => recordKey x == k) r
        (dedupRec (recordKey r :: seen) rs) hne]
      exact ih (recordKey r :: seen)
        (by simp only [List.contains_cons, Bool.or_eq_true]; exact Or.inr h)

theorem dedupRec_filter_key (rs : List Record) (seen : List String) (k : String)
    (h : seen.contains k = false) :
    (dedupRec seen rs).filter (fun r => recordKey r == k) =
      (rs.find? (fun r => recordKey r == k)).toList := by
  induction rs generalizing seen with
  | nil => rfl
  | cons r rs ih =>
    simp only [dedupRec]
    by_cases hc : seen.contains (recordKey r) = true
    · have hne : ¬(recordKey r == k) = true := by
        intro he
        rw [(beq_iff_eq.mp he)] at hc
        rw [hc] at h
        cases h
      rw [if_pos hc, @List.find?_cons_of_neg Record (fun x => recordKey x == k) r rs hne]
      exact ih seen h
    · rw [if_neg hc]
      by_cases hk : (recordKey r == k) = true
      · rw [@List.filter_cons_of_pos Record (fun x => recordKey x == k) r
          (dedupRec (recordKey r :: seen) rs) hk,
          @List.find?_cons_of_pos Record (fun x => recordKey x == k) r rs hk]
        have hrest : (dedupRec (recordKey r :: seen) rs).filter (fun x => recordKey x == k) = [] := by
          apply dedupRec_filter_of_seen
          simp [List.contains_cons, beq_iff_eq.mp hk]
        rw [hrest]
        rfl
      · rw [@List.filter_cons_of_neg Record (fun x => recordKey x == k) r
          (dedupRec (recordKey r :: seen) rs) hk,
          @List.find?_cons_of_neg Record (fun x => recordKey x == k) r rs hk]
        refine ih (recordKey r :: seen) ?_
        simp only [List.contains_cons, Bool.or_eq_false_iff]
        refine ⟨?_, h⟩
        rw [beq_eq_false_iff_ne]
        intro he
        exact hk (beq_iff_eq.mpr he.symm)

theorem dedupRec_keys (rs : List Record) (seen : List String) :
    (∀ r ∈ dedupRec seen rs, seen.contains (recordKey r) = false) ∧
    (dedupRec seen rs).Pairwise (fun a b => recordKey a ≠ recordKey b) := by
  induction rs generalizing seen with
  | nil => simp [dedupRec]
  | cons r rs ih =>
    simp only [dedupRec]
    by_cases hc : seen.contains (recordKey r) = true
    · rw [if_pos hc]
      exact ih seen
    · rw [if_neg hc]
      obtain ⟨ih1, ih2⟩ := ih (recordKey r :: seen)
      constructor
      · intro x hx
        rcases List.mem_cons.mp hx with hx | hx
        · rw [hx]
          exact (Bool.not_eq_true _) ▸ hc
        · have := ih1 x hx
          simp only [List.contains_cons, Bool.or_eq_false_iff] at this
          exact this.2
      · rw [List.pairwise_cons]
        refine ⟨?_, ih2⟩
        intro y hy
        have := ih1 y hy
        simp only [List.contains_cons, Bool.or_eq_false_iff, beq_eq_false_iff_ne] at this
        exact fun he => this.1 he.symm

theorem dedupRec_append (a b : List Record) (seen : List String) :
    dedupRec seen (a ++ b) = dedupRec seen a ++ dedupRec (dedupSeen seen a) b := by
  induction a generalizing seen with
  | nil => simp [dedupRec, dedupSeen]
  | cons r rs ih =>
    simp only [List.cons_append, dedupRec, dedupSeen]
    by_cases hc : seen.contains (recordKey r) = true
    · rw [if_pos hc, if_pos hc, if_pos hc]
      exact ih seen
    · rw [if_neg hc, if_neg hc, if_neg hc, List.cons_append]
      exact congrArg (fun l => r :: l) (ih (recordKey r :: seen))

theorem dedupSeen_contains (a : List Record) (seen : List String) (k : String) :
    (dedupSeen seen a).contains k = (seen.contains k || a.any (fun r => recordKey r == k)) := by
  induction a generalizing seen with
  | nil => simp [dedupSeen]
  | cons r rs ih =>
    simp only [dedupSeen, List.any_cons]
    by_cases hc : seen.contains (recordKey r) = true
    · rw [if_pos hc, ih seen]
      by_cases he : recordKey r = k
      · rw [he] at hc
        rw [hc]
        simp
      · rw [beq_eq_false_iff_ne.mpr he]
        simp
    · rw [if_neg hc, ih (recordKey r :: seen)]
      simp only [List.contains_cons]
      by_cases he : recordKey r = k
      · simp [he]
      · rw [beq_eq_false_iff_ne.mpr he, beq_eq_false_iff_ne.mpr (fun x => he x.symm)]
        simp

theorem dedupRec_nil_of_seen (rs : List Record) (seen : List String)
    (h : ∀ r ∈ rs, seen.contains (recordKey r) = true) : dedupRec seen rs = [] := by
  induction rs generalizing seen with
  | nil => rfl
  | cons r rs ih =>
    simp only [dedupRec]
    rw [if_pos (h r (List.mem_cons_self r rs))]
    exact ih seen (fun x hx => h x (List.mem_cons_of_mem r hx))

theorem mergeDedup_idem (rs : List Record) : mergeDedup (rs ++ rs) = mergeDedup rs := by
  rw [mergeDedup_eq_dedupRec, mergeDedup_eq_dedupRec, dedupRec_append]
  have hnil : dedupRec (dedupSeen [] rs) rs = [] := by
    apply dedupRec_nil_of_seen
    intro r hr
    rw [dedupSeen_contains]
    simp only [Bool.or_eq_true, List.any_eq_true]
    exact Or.inr ⟨r, hr, beq_self_eq_true (recordKey r)⟩
  rw [hnil, List.append_nil]

/-- C1.  First-wins uniqueness of the merge: for every key, the retained
record with that key is exactly the first record of the input stream with
that key (later collisions are dropped, never overwrite); consequently no
two records of the final merged output share the (date, time, source tag)
triple, and merging a record set with itself retains exactly the records
of a single copy. -/
theorem C1_merge_first_wins_unique :
    (∀ (rs : List Record) (k : String),
      (mergeDedup rs).filter (fun r => recordKey r == k) =
        (rs.find? (fun r => recordKey r == k)).toList) ∧
    (∀ (existing : Option (List String)) (data_to_add : List Record),
      (mergedAll existing data_to_add).Pairwise (fun a b =>
        ¬(a.date_str = b.date_str ∧ a.time_str = b.time_str ∧ a.inst_code = b.inst_code))) ∧
    (∀ rs : List Record, mergeDedup (rs ++ rs) = mergeDedup rs) := by
  refine ⟨?_, ?_, mergeDedup_idem⟩
  · intro rs k
    rw [mergeDedup_eq_dedupRec]
    exact dedupRec_filter_key rs [] k rfl
  · intro existing data_to_add
    have hkeys : (mergedPreSort existing data_to_add).Pairwise
        (fun a b => recordKey a ≠ recordKey b) := by
      rw [mergedPreSort, mergeDedup_eq_dedupRec]
      exact (dedupRec_keys _ []).2
    have htriple : (mergedPreSort existing data_to_add).Pairwise (fun a b =>
        ¬(a.date_str = b.date_str ∧ a.time_str = b.time_str ∧ a.inst_code = b.inst_code)) := by
      refine hkeys.imp ?_
      intro a b hab hcon
      exact hab (by simp [recordKey, hcon.1, hcon.2.1, hcon.2.2])
    refine htriple.perm (List.mergeSort_perm _ _).symm ?_
    intro x y hxy hcon
    exact hxy ⟨hcon.1.symm, hcon.2.1.symm, hcon.2.2.symm⟩

/-! ## C2: deterministic chronological ordering -/

theorem filter_mergeSort_stable (l : List Record) (p : Record → Bool)
    (hp : ∀ a b, p a = true → p b = true → recordLe a b = true) :
    (l.mergeSort recordLe).filter p = l.filter p := by
  have hpair : (l.filter p).Pairwise (fun a b => recordLe a b = true) := by
    apply List.pairwise_of_forall_mem_list
    intro a ha b hb
    exact hp a b (List.of_mem_filter ha) (List.of_mem_filter hb)
  have hsub2 : (l.filter p).Sublist (l.mergeSort recordLe) :=
    List.sublist_mergeSort recordLe_trans recordLe_total hpair (List.filter_sublist l)
  have hsub3 : ((l.filter p).filter p).Sublist ((l.mergeSort recordLe).filter p) :=
    List.Sublist.filter p hsub2
  have hff : (l.filter p).filter p = l.filter p :=
    List.filter_eq_self.mpr (fun a ha => List.of_mem_filter ha)
  rw [hff] at hsub3
  have hlen : ((l.mergeSort recordLe).filter p).length = (l.filter p).length :=
    ((List.mergeSort_perm l recordLe).filter p).length_eq
  exact (hsub3.eq_of_length hlen.symm).symm

/-- C2.  For every input, the merged output sequence is non-decreasing in
the stored datetime — lexicographically (date, time) — and the sort is
stable: the records carrying any fixed (date, time) appear in the output
in exactly the order they were inserted into the merged collection,
whatever order the inputs arrived in. -/
theorem C2_output_sorted_stable (existing : Option (List String)) (data_to_add : List Record) :
    (mergedAll existing data_to_add).Pairwise (fun a b => dtLe a.date_obj b.date_obj = true) ∧
    (∀ dtv : PyDateTime,
      (mergedAll existing data_to_add).filter (fun r => decide (r.date_obj = dtv)) =
        (mergedPreSort existing data_to_add).filter (fun r => decide (r.date_obj = dtv))) := by
  constructor
  · exact List.sorted_mergeSort recordLe_trans recordLe_total (mergedPreSort existing data_to_add)
  · intro dtv
    apply filter_mergeSort_stable
    intro a b ha hb
    have h1 : a.date_obj = dtv := of_decide_eq_true ha
    have h2 : b.date_obj = dtv := of_decide_eq_true hb
    show dtLe a.date_obj b.date_obj = true
    rw [h1, h2]
    exact dtLe_refl dtv

/-! ## C4: nearest grid point -/

theorem foldl_min_le_init (xs : List ℚ) (a : ℚ) : xs.foldl min a ≤ a := by
  induction xs generalizing a with
  | nil => exact le_refl a
  | cons x xs ih => exact le_trans (ih (min a x)) (min_le_left a x)

theorem foldl_min_le_mem (xs : List ℚ) (a x : ℚ) (hx : x ∈ xs) : xs.foldl min a ≤ x := by
  induction xs generalizing a with
  | nil => cases hx
  | cons y ys ih =>
    rcases List.mem_cons.mp hx with h | h
    · rw [List.foldl_cons, h]
      exact le_trans (foldl_min_le_init ys (min a y)) (min_le_right a y)
    · rw [List.foldl_cons]
      exact ih (min a y) h

theorem foldl_min_choice (xs : List ℚ) (a : ℚ) : xs.foldl min a = a ∨ xs.foldl min a ∈ xs := by
  induction xs generalizing a with
  | nil => exact Or.inl rfl
  | cons x xs ih =>
    rcases ih (min a x) with h | h
    · rcases min_choice a x with hm | hm
      · exact Or.inl (by rw [List.foldl_cons, h, hm])
      · exact Or.inr (by rw [List.foldl_cons, h, hm]; exact List.mem_cons_self x xs)
    · exact Or.inr (List.mem_cons_of_mem x h)

theorem minList_le (l : List ℚ) (x : ℚ) (hx : x ∈ l) : minList l ≤ x := by
  cases l with
  | nil => cases hx
  | cons y ys =>
    rcases List.mem_cons.mp hx with h | h
    · rw [h]
      exact foldl_min_le_init ys y
    · exact foldl_min_le_mem ys y x h

theorem minList_mem (l : List ℚ) (h : l ≠ []) : minList l ∈ l := by
  cases l with
  | nil => exact absurd rfl h
  | cons y ys =>
    rcases foldl_min_choice ys y with hc | hc
    · rw [minList, hc]
      exact List.mem_cons_self y ys
    · exact List.mem_cons_of_mem y hc

theorem argminList_lt_length (l : List ℚ) (h : l ≠ []) : argminList l < l.length :=
  List.findIdx_lt_length_of_exists ⟨minList l, minList_mem l h, by simp⟩

theorem argminList_getD (l : List ℚ) (h : l ≠ []) : l.getD (argminList l) 0 = minList l := by
  have hlt := argminList_lt_length l h
  rw [List.getD_eq_getElem l 0 hlt]
  have h2 := @List.findIdx_getElem ℚ (fun v => v == minList l) l hlt
  simpa using h2

theorem argminList_first (l : List ℚ) (i : Nat) (hi : i < argminList l) (hl : i < l.length) :
    l.getD i 0 ≠ minList l := by
  rw [List.getD_eq_getElem l 0 hl]
  intro he
  have := List.not_of_lt_findIdx hi
  rw [beq_eq_false_iff_ne] at this
  exact this he

/-- A rectangular numpy-style grid: R rows, every row of length C. -/
def RectGrid (g : List (List ℚ)) (R C : Nat) : Prop :=
  g.length = R ∧ ∀ (i : Nat) (h : i < g.length), g[i].length = C

/-- The coordinate stored at a grid cell, row-major. -/
def cellAt (g : List (List ℚ)) (i j : Nat) : ℚ := (g.getD i []).getD j 0

theorem rect_flatten_length (g : List (List ℚ)) (R C : Nat) (h : RectGrid g R C) :
    g.flatten.length = R * C := by
  obtain ⟨hR, hC⟩ := h
  induction g generalizing R with
  | nil => simp [← hR]
  | cons row rest ih =>
    have hrow : row.length = C := hC 0 (by simp)
    have hrest : rest.flatten.length = rest.length * C := by
      refine ih rest.length rfl ?_
      intro i hi
      exact hC (i + 1) (by simpa using Nat.succ_lt_succ hi)
    rw [← hR]
    simp only [List.flatten_cons, List.length_append, List.length_cons, hrow, hrest]
    ring

theorem rect_flatten_getD (g : List (List ℚ)) (R C : Nat) (h : RectGrid g R C)
    (i j : Nat) (hi : i < R) (hj : j < C) :
    g.flatten.getD (i * C + j) 0 = cellAt g i j := by
  obtain ⟨hR, hC⟩ := h
  induction g generalizing R i with
  | nil =>
    simp only [List.length_nil] at hR
    omega
  | cons row rest ih =>
    have hrow : row.length = C := hC 0 (by simp)
    have hrest2 : ∀ (k : Nat) (hk : k < rest.length), rest[k].length = C := by
      intro k hk
      exact hC (k + 1) (by simpa using Nat.succ_lt_succ hk)
    cases i with
    | zero =>
      have hlt : j < row.length := by omega
      simp only [Nat.zero_mul, Nat.zero_add, List.flatten_cons, cellAt, List.getD_cons_zero]
      exact List.getD_append row rest.flatten 0 j hlt
    | succ i2 =>
      have hi2 : i2 < rest.length := by
        simp only [List.length_cons] at hR
        omega
      have hstep : row.length ≤ (i2 + 1) * C + j := by
        have : (i2 + 1) * C = i2 * C + C := by ring
        omega
      have hidx : (i2 + 1) * C + j - row.length = i2 * C + j := by
        have : (i2 + 1) * C = i2 * C + C := by ring
        omega
      simp only [List.flatten_cons, cellAt, List.getD_cons_succ]
      rw [List.getD_append_right row rest.flatten 0 _ hstep, hidx]
      exact ih rest.length i2 hi2 rfl hrest2

theorem distGrid_rect (latg long : List (List ℚ)) (R C : Nat) (tla tlo : ℚ)
    (h1 : RectGrid latg R C) (h2 : RectGrid long R C) :
    RectGrid (distGrid latg long tla tlo) R C := by
  obtain ⟨hR1, hC1⟩ := h1
  obtain ⟨hR2, hC2⟩ := h2
  constructor
  · simp [distGrid, List.length_zipWith, hR1, hR2]
  · intro i hi
    simp only [distGrid, List.length_zipWith, hR1, hR2, Nat.min_self] at hi
    have hi1 : i < latg.length := by omega
    have hi2 : i < long.length := by omega
    simp only [distGrid, List.getElem_zipWith, List.length_zipWith, hC1 i hi1, hC2 i hi2,
      Nat.min_self]

theorem distGrid_cellAt (latg long : List (List ℚ)) (R C : Nat) (tla tlo : ℚ)
    (h1 : RectGrid latg R C) (h2 : RectGrid long R C) (i j : Nat) (hi : i < R) (hj : j < C) :
    cellAt (distGrid latg long tla tlo) i j =
      cellDist (cellAt latg i j) (cellAt long i j) tla tlo := by
  obtain ⟨hR1, hC1⟩ := h1
  obtain ⟨hR2, hC2⟩ := h2
  have hi1 : i < latg.length := by omega
  have hi2 : i < long.length := by omega
  have hiz : i < (distGrid latg long tla tlo).length := by
    simp [distGrid, List.length_zipWith]
    omega
  have hj1 : j < latg[i].length := by rw [hC1 i hi1]; exact hj
  have hj2 : j < long[i].length := by rw [hC2 i hi2]; exact hj
  have hjz : j < (List.zipWith (fun a o => cellDist a o tla tlo) latg[i] long[i]).length := by
    simp [List.length_zipWith]
    omega
  simp only [cellAt, List.getD_eq_getElem _ [] hiz, List.getD_eq_getElem _ [] hi1,
    List.getD_eq_getElem _ [] hi2]
  simp only [distGrid, List.getElem_zipWith]
  rw [List.getD_eq_getElem _ 0 hjz, List.getD_eq_getElem _ 0 hj1, List.getD_eq_getElem _ 0 hj2]
  simp [List.getElem_zipWith]

theorem rect_headD_length (g : List (List ℚ)) (R C : Nat) (h : RectGrid g R C) (hR : 0 < R) :
    (g.headD []).length = C := by
  obtain ⟨h1, h2⟩ := h
  cases g with
  | nil =>
    simp only [List.length_nil] at h1
    omega
  | cons row rest =>
    have := h2 0 (by simp)
    simpa using this

theorem nearestIn_spec (latg long : List (List ℚ)) (R C : Nat) (tla tlo : ℚ)
    (h1 : RectGrid latg R C) (h2 : RectGrid long R C) (hR : 0 < R) (hC : 0 < C) :
    ∃ i j, nearestIn latg long tla tlo = some (i, j) ∧ i < R ∧ j < C ∧
      ∀ i2 j2, i2 < R → j2 < C →
        cellDist (cellAt latg i j) (cellAt long i j) tla tlo ≤
          cellDist (cellAt latg i2 j2) (cellAt long i2 j2) tla tlo ∧
        (cellDist (cellAt latg i2 j2) (cellAt long i2 j2) tla tlo =
          cellDist (cellAt latg i j) (cellAt long i j) tla tlo → i * C + j ≤ i2 * C + j2) := by
  have hrect : RectGrid (distGrid latg long tla tlo) R C := distGrid_rect latg long R C tla tlo h1 h2
  have hflatlen : (distGrid latg long tla tlo).flatten.length = R * C :=
    rect_flatten_length _ R C hrect
  have hpos : 0 < R * C := Nat.mul_pos hR hC
  have hfne : (distGrid latg long tla tlo).flatten ≠ [] := by
    intro hnil
    rw [hnil] at hflatlen
    simp only [List.length_nil] at hflatlen
    omega
  have hklt : argminList (distGrid latg long tla tlo).flatten < R * C := by
    rw [← hflatlen]
    exact argminList_lt_length _ hfne
  have hcols : ((distGrid latg long tla tlo).headD []).length = C :=
    rect_headD_length _ R C hrect hR
  have hi : argminList (distGrid latg long tla tlo).flatten / C < R := by
    rw [Nat.div_lt_iff_lt_mul hC]
    omega
  have hj : argminList (distGrid latg long tla tlo).flatten % C < C :=
    Nat.mod_lt _ hC
  have hkij : (argminList (distGrid latg long tla tlo).flatten / C) * C +
      argminList (distGrid latg long tla tlo).flatten % C =
      argminList (distGrid latg long tla tlo).flatten := by
    rw [Nat.mul_comm]
    exact Nat.div_add_mod _ C
  have hminval : (distGrid latg long tla tlo).flatten.getD
      (argminList (distGrid latg long tla tlo).flatten) 0 =
      minList (distGrid latg long tla tlo).flatten := argminList_getD _ hfne
  have hcellmin : cellDist
      (cellAt latg (argminList (distGrid latg long tla tlo).flatten / C)
        (argminList (distGrid latg long tla tlo).flatten % C))
      (cellAt long (argminList (distGrid latg long tla tlo).flatten / C)
        (argminList (distGrid latg long tla tlo).flatten % C)) tla tlo =
      minList (distGrid latg long tla tlo).flatten := by
    rw [← distGrid_cellAt latg long R C tla tlo h1 h2 _ _ hi hj,
      ← rect_flatten_getD _ R C hrect _ _ hi hj, hkij, hminval]
  refine ⟨argminList (distGrid latg long tla tlo).flatten / C,
    argminList (distGrid latg long tla tlo).flatten % C, ?_, hi, hj, ?_⟩
  · simp only [nearestIn]
    have hemp : ¬((distGrid latg long tla tlo).flatten.isEmpty = true) := by
      cases hfl : (distGrid latg long tla tlo).flatten with
      | nil => exact absurd hfl hfne
      | cons x xs => simp
    rw [if_neg hemp, hcols]
  · intro i2 j2 hi2 hj2
    have hk2 : i2 * C + j2 < R * C := by
      have hstep : i2 * C + j2 < (i2 + 1) * C := by
        have : (i2 + 1) * C = i2 * C + C := by ring
        omega
      have hle : (i2 + 1) * C ≤ R * C := Nat.mul_le_mul_right C hi2
      omega
    have hk2len : i2 * C + j2 < (distGrid latg long tla tlo).flatten.length := by omega
    have hcell2 : (distGrid latg long tla tlo).flatten.getD (i2 * C + j2) 0 =
        cellDist (cellAt latg i2 j2) (cellAt long i2 j2) tla tlo := by
      rw [rect_flatten_getD _ R C hrect _ _ hi2 hj2,
        distGrid_cellAt latg long R C tla tlo h1 h2 _ _ hi2 hj2]
    have hmem : (distGrid latg long tla tlo).flatten.getD (i2 * C + j2) 0 ∈
        (distGrid latg long tla tlo).flatten := by
      rw [List.getD_eq_getElem _ 0 hk2len]
      exact List.getElem_mem hk2len
    constructor
    · rw [hcellmin, ← hcell2]
      exact minList_le _ _ hmem
    · intro heq
      by_contra hlt
      push_neg at hlt
      rw [hkij] at hlt
      have hne := argminList_first (distGrid latg long tla tlo).flatten (i2 * C + j2) hlt hk2len
      rw [hcell2] at hne
      exact hne (heq.trans hcellmin)

theorem cellDist_nonneg (a b t u : ℚ) : 0 ≤ cellDist a b t u := by
  simp only [cellDist]
  positivity

theorem cellDist_eq_zero (a b t u : ℚ) : cellDist a b t u = 0 ↔ a = t ∧ b = u := by
  constructor
  · intro h
    simp only [cellDist] at h
    have h1 : (a - t) ^ 2 = 0 := by nlinarith [sq_nonneg (a - t), sq_nonneg (b - u)]
    have h2 : (b - u) ^ 2 = 0 := by nlinarith [sq_nonneg (a - t), sq_nonneg (b - u)]
    have hn : (2 : ℕ) ≠ 0 := by norm_num
    exact ⟨sub_eq_zero.mp ((pow_eq_zero_iff hn).mp h1),
      sub_eq_zero.mp ((pow_eq_zero_iff hn).mp h2)⟩
  · rintro ⟨ha, hb⟩
    simp [cellDist, ha, hb]

theorem meshLat_rect (la lo : List ℚ) : RectGrid (meshLat la lo) la.length lo.length := by
  refine ⟨by simp [meshLat], ?_⟩
  intro i hi
  simp only [meshLat, List.getElem_map, List.length_replicate]

theorem meshLon_rect (la lo : List ℚ) : RectGrid (meshLon la lo) la.length lo.length := by
  refine ⟨by simp [meshLon], ?_⟩
  intro i hi
  simp only [meshLon, List.getElem_replicate]

theorem meshLat_cellAt (la lo : List ℚ) (i j : Nat) (hi : i < la.length) (hj : j < lo.length) :
    cellAt (meshLat la lo) i j = la.getD i 0 := by
  have him : i < (meshLat la lo).length := by
    simp only [meshLat, List.length_map]
    omega
  have hjr : j < (List.replicate lo.length la[i]).length := by
    simp only [List.length_replicate]
    omega
  rw [cellAt, List.getD_eq_getElem _ [] him]
  simp only [meshLat, List.getElem_map]
  rw [List.getD_eq_getElem _ 0 hjr, List.getElem_replicate, List.getD_eq_getElem la 0 hi]

theorem meshLon_cellAt (la lo : List ℚ) (i j : Nat) (hi : i < la.length) (hj : j < lo.length) :
    cellAt (meshLon la lo) i j = lo.getD j 0 := by
  have him : i < (meshLon la lo).length := by
    simp only [meshLon, List.length_replicate]
    omega
  rw [cellAt, List.getD_eq_getElem _ [] him]
  simp only [meshLon, List.getElem_replicate]

/-- C4.  find_nearest_grid_point returns the row-major-first index of the
cell minimizing squared Euclidean degree-space distance to the target:
for two-dimensional coordinate arrays the returned cell is in range, no
cell has a strictly smaller distance, ties go to the smaller row-major
position, and when the target coincides with some grid point the returned
cell carries exactly the target coordinates; one-dimensional inputs are
first expanded by meshgrid into exactly such a pair of two-dimensional
arrays, whose cells are the outer product of the two axes. -/
theorem C4_nearest_grid_point :
    (∀ (latg long : List (List ℚ)) (R C : Nat) (tla tlo : ℚ),
      RectGrid latg R C → RectGrid long R C → 0 < R → 0 < C →
      ∃ i j, find_nearest_grid_point (.d2 latg) (.d2 long) tla tlo = some (i, j) ∧
        i < R ∧ j < C ∧
        (∀ i2 j2, i2 < R → j2 < C →
          cellDist (cellAt latg i j) (cellAt long i j) tla tlo ≤
            cellDist (cellAt latg i2 j2) (cellAt long i2 j2) tla tlo ∧
          (cellDist (cellAt latg i2 j2) (cellAt long i2 j2) tla tlo =
            cellDist (cellAt latg i j) (cellAt long i j) tla tlo →
            i * C + j ≤ i2 * C + j2)) ∧
        ((∃ i2 j2, i2 < R ∧ j2 < C ∧ cellAt latg i2 j2 = tla ∧ cellAt long i2 j2 = tlo) →
          cellAt latg i j = tla ∧ cellAt long i j = tlo)) ∧
    (∀ (la lo : List ℚ) (tla tlo : ℚ),
      find_nearest_grid_point (.d1 la) (.d1 lo) tla tlo =
        find_nearest_grid_point (.d2 (meshLat la lo)) (.d2 (meshLon la lo)) tla tlo ∧
      RectGrid (meshLat la lo) la.length lo.length ∧
      RectGrid (meshLon la lo) la.length lo.length ∧
      (∀ i j, i < la.length → j < lo.length →
        cellAt (meshLat la lo) i j = la.getD i 0 ∧ cellAt (meshLon la lo) i j = lo.getD j 0)) := by
  constructor
  · intro latg long R C tla tlo h1 h2 hR hC
    obtain ⟨i, j, heq, hi, hj, hmin⟩ := nearestIn_spec latg long R C tla tlo h1 h2 hR hC
    refine ⟨i, j, heq, hi, hj, hmin, ?_⟩
    rintro ⟨i2, j2, hi2, hj2, hlat, hlon⟩
    have h0 : cellDist (cellAt latg i2 j2) (cellAt long i2 j2) tla tlo = 0 := by
      rw [hlat, hlon]
      simp [cellDist]
    have hle := (hmin i2 j2 hi2 hj2).1
    rw [h0] at hle
    have hzero : cellDist (cellAt latg i j) (cellAt long i j) tla tlo = 0 :=
      le_antisymm hle (cellDist_nonneg _ _ _ _)
    exact (cellDist_eq_zero _ _ _ _).mp hzero
  · intro la lo tla tlo
    exact ⟨rfl, meshLat_rect la lo, meshLon_rect la lo,
      fun i j hi hj => ⟨meshLat_cellAt la lo i j hi hj, meshLon_cellAt la lo i j hi hj⟩⟩

/-- Witness for C4: the synthetic 3 by 3 grid built from axes 50, 51, 52
and 4, 5, 6, queried at the exact grid point (52, 5). -/
theorem C4_nearest_grid_point_witness :
    ∃ i j, find_nearest_grid_point (.d2 (meshLat [50, 51, 52] [4, 5, 6]))
        (.d2 (meshLon [50, 51, 52] [4, 5, 6])) 52 5 = some (i, j) ∧
      i < 3 ∧ j < 3 ∧
      (∀ i2 j2, i2 < 3 → j2 < 3 →
        cellDist (cellAt (meshLat [50, 51, 52] [4, 5, 6]) i j)
            (cellAt (meshLon [50, 51, 52] [4, 5, 6]) i j) 52 5 ≤
          cellDist (cellAt (meshLat [50, 51, 52] [4, 5, 6]) i2 j2)
            (cellAt (meshLon [50, 51, 52] [4, 5, 6]) i2 j2) 52 5 ∧
        (cellDist (cellAt (meshLat [50, 51, 52] [4, 5, 6]) i2 j2)
            (cellAt (meshLon [50, 51, 52] [4, 5, 6]) i2 j2) 52 5 =
          cellDist (cellAt (meshLat [50, 51, 52] [4, 5, 6]) i j)
            (cellAt (meshLon [50, 51, 52] [4, 5, 6]) i j) 52 5 →
          i * 3 + j ≤ i2 * 3 + j2)) ∧
      ((∃ i2 j2, i2 < 3 ∧ j2 < 3 ∧ cellAt (meshLat [50, 51, 52] [4, 5, 6]) i2 j2 = 52 ∧
          cellAt (meshLon [50, 51, 52] [4, 5, 6]) i2 j2 = 5) →
        cellAt (meshLat [50, 51, 52] [4, 5, 6]) i j = 52 ∧
        cellAt (meshLon [50, 51, 52] [4, 5, 6]) i j = 5) :=
  C4_nearest_grid_point.1 (meshLat [50, 51, 52] [4, 5, 6]) (meshLon [50, 51, 52] [4, 5, 6])
    3 3 52 5 (meshLat_rect [50, 51, 52] [4, 5, 6]) (meshLon_rect [50, 51, 52] [4, 5, 6])
    (by norm_num) (by norm_num)

/-! ## C6: fatal errors of the extraction -/

/-- C6, counterexample to the claim as stated.  A file with the PRODUCT
group, all four required variables, one-dimensional latitude and
longitude, a rank-three UV field and a finite, unmasked sample — so none
of the four structural problems — still returns the fatal no-records
result, because its packed date 20231301 (month 13) makes the datetime
constructor raise inside the catch-all handler.  The failure is caused by
a date value, not by any of the structural problems the claim lists, and
not by the UV sample, which is finite. -/
theorem C6_counterexample :
    process_netcdf_data
      ⟨some ⟨some (.d1 [52]), some (.d1 [5]), some (.d3 [[[.fin 3]]]), some [20231301]⟩⟩
      52 5 = none ∧
    uvLookup (.d3 [[[.fin 3]]]) 1 0 0 0 = some (.fin 3) ∧
    badSample (.fin 3) = false ∧
    decodePackedDate 20231301 = none := by
  refine ⟨?_, rfl, rfl, ?_⟩
  · set_option maxRecDepth 100000 in with_unfolding_all decide
  · with_unfolding_all decide

theorem processAll_isSome (uv : UVField) (T lat lon : Nat) (ds : List Int) (i : Nat)
    (hd : ∀ d ∈ ds, (decodePackedDate d).isSome)
    (hl : ∀ k, k < ds.length → (uvLookup uv T lat lon (i + k)).isSome) :
    (processAll uv T lat lon ds i).isSome := by
  induction ds generalizing i with
  | nil => simp [processAll]
  | cons d ds ih =>
    obtain ⟨dt, hdt⟩ := Option.isSome_iff_exists.mp (hd d (List.mem_cons_self d ds))
    have hl0 : (uvLookup uv T lat lon i).isSome := by
      have := hl 0 (by simp)
      simpa using this
    obtain ⟨v, hv⟩ := Option.isSome_iff_exists.mp hl0
    have ihs : (processAll uv T lat lon ds (i + 1)).isSome := by
      refine ih (i + 1) (fun x hx => hd x (List.mem_cons_of_mem d hx)) ?_
      intro k hk
      have := hl (k + 1) (by simpa using Nat.succ_lt_succ hk)
      have harith : i + (k + 1) = i + 1 + k := by omega
      rwa [harith] at this
    simp only [processAll, processTimestep, hdt, hv]
    cases v with
    | fin q => simpa using ihs
    | masked => simpa using ihs
    | nanV => simpa using ihs
    | infV => simpa using ihs
    | ninfV => simpa using ihs

/-- C6 as amended.  The extraction returns its fatal no-records result
only for structural problems or for a timestep whose packed date does not
decode to a constructible calendar date (or whose index falls outside the
UV array); it never fails on account of sample quality: whenever the file
is structurally sound — PRODUCT group and all four variables present,
latitude and longitude one-dimensional and non-empty, UV of rank
[time, lat, lon] covering every timestep and the full coordinate grid —
and every packed date decodes, the extraction succeeds no matter which
samples are masked, NaN or non-finite.  Conversely a missing PRODUCT
group, a missing variable, mismatched coordinate dimensionality, and an
unexpected UV rank at a decodable timestep each produce the fatal
result. -/
theorem C6_fatal_errors (la lo : List ℚ) (uvarr : List (List (List UVVal)))
    (dates : List Int) (tla tlo : ℚ)
    (hla : la ≠ []) (hlo : lo ≠ [])
    (hT : dates.length ≤ uvarr.length)
    (hplane : ∀ p ∈ uvarr, p.length = la.length ∧ ∀ row ∈ p, row.length = lo.length)
    (hdates : ∀ d ∈ dates, (decodePackedDate d).isSome) :
    (process_netcdf_data
      ⟨some ⟨some (.d1 la), some (.d1 lo), some (.d3 uvarr), some dates⟩⟩ tla tlo).isSome ∧
    process_netcdf_data ⟨none⟩ tla tlo = none ∧
    (∀ lons uv dvar, process_netcdf_data
      ⟨some ⟨none, lons, uv, dvar⟩⟩ tla tlo = none) ∧
    (∀ g2 uv dvar, process_netcdf_data
      ⟨some ⟨some (.d1 la), some (.d2 g2), some uv, some dvar⟩⟩ tla tlo = none) ∧
    (∀ d ds, (decodePackedDate d).isSome → process_netcdf_data
      ⟨some ⟨some (.d1 la), some (.d1 lo), some .other, some (d :: ds)⟩⟩ tla tlo = none) := by
  have hR : 0 < la.length := List.length_pos.mpr hla
  have hC : 0 < lo.length := List.length_pos.mpr hlo
  obtain ⟨i, j, heq, hi, hj, hmin⟩ := nearestIn_spec (meshLat la lo) (meshLon la lo)
    la.length lo.length tla tlo (meshLat_rect la lo) (meshLon_rect la lo) hR hC
  have hfind : find_nearest_grid_point (.d1 la) (.d1 lo) tla tlo = some (i, j) := heq
  refine ⟨?_, rfl, fun lons uv dvar => rfl, fun g2 uv dvar => rfl, ?_⟩
  · simp only [process_netcdf_data, hfind]
    refine processAll_isSome (.d3 uvarr) dates.length i j dates 0 hdates ?_
    intro k hk
    have hk2 : k < uvarr.length := by omega
    obtain ⟨hp, hrow⟩ := hplane uvarr[k] (List.getElem_mem hk2)
    have hi2 : i < uvarr[k].length := by omega
    have hrl : uvarr[k][i].length = lo.length :=
      hrow _ (List.getElem_mem hi2)
    have hj2 : j < uvarr[k][i].length := by omega
    simp only [Nat.zero_add, uvLookup]
    rw [List.getElem?_eq_getElem hk2, Option.some_bind,
      List.getElem?_eq_getElem hi2, Option.some_bind,
      List.getElem?_eq_getElem hj2]
    rfl
  · intro d ds hdec
    obtain ⟨dt, hdt⟩ := Option.isSome_iff_exists.mp hdec
    simp only [process_netcdf_data, hfind, processAll, processTimestep, hdt, uvLookup]

/-- Witness for C6: a 1 by 1 grid, one decodable timestep, NaN sample. -/
theorem C6_fatal_errors_witness :
    (process_netcdf_data
      ⟨some ⟨some (.d1 [52]), some (.d1 [5]), some (.d3 [[[.nanV]]]), some [20230601]⟩⟩
      52 5).isSome ∧
    process_netcdf_data ⟨none⟩ 52 5 = none ∧
    (∀ lons uv dvar, process_netcdf_data ⟨some ⟨none, lons, uv, dvar⟩⟩ 52 5 = none) ∧
    (∀ g2 uv dvar, process_netcdf_data
      ⟨some ⟨some (.d1 [52]), some (.d2 g2), some uv, some dvar⟩⟩ 52 5 = none) ∧
    (∀ d ds, (decodePackedDate d).isSome → process_netcdf_data
      ⟨some ⟨some (.d1 [52]), some (.d1 [5]), some .other, some (d :: ds)⟩⟩ 52 5 = none) :=
  C6_fatal_errors [52] [5] [[[.nanV]]] [20230601] 52 5
    (by with_unfolding_all decide) (by with_unfolding_all decide)
    (by with_unfolding_all decide) (by with_unfolding_all decide)
    (by set_option maxRecDepth 100000 in with_unfolding_all decide)

/-! ## C3: the daily peak reduction -/

theorem gtF_irrefl (a : FloatVal) : gtF a a = false := by
  cases a with
  | fin q => simp [gtF]
  | nan => rfl
  | inf => rfl
  | ninf => rfl

theorem gtF_trans (a b c : FloatVal) (h1 : gtF a b = true) (h2 : gtF b c = true) :
    gtF a c = true := by
  cases a <;> cases b <;> cases c <;> simp_all [gtF] <;> linarith

theorem gtF_total3 (a b : FloatVal) (ha : a ≠ .nan) (hb : b ≠ .nan) :
    gtF a b = true ∨ gtF b a = true ∨ a = b := by
  cases a with
  | nan => exact absurd rfl ha
  | inf => cases b with
    | nan => exact absurd rfl hb
    | inf => exact Or.inr (Or.inr rfl)
    | ninf => exact Or.inl rfl
    | fin q => exact Or.inl rfl
  | ninf => cases b with
    | nan => exact absurd rfl hb
    | inf => exact Or.inr (Or.inl rfl)
    | ninf => exact Or.inr (Or.inr rfl)
    | fin q => exact Or.inr (Or.inl rfl)
  | fin p => cases b with
    | nan => exact absurd rfl hb
    | inf => exact Or.inr (Or.inl rfl)
    | ninf => exact Or.inl rfl
    | fin q =>
      rcases lt_trichotomy p q with h | h | h
      · exact Or.inr (Or.inl (by simp [gtF, h]))
      · exact Or.inr (Or.inr (by rw [h]))
      · exact Or.inl (by simp [gtF, h])

/-- A record that does not beat the current best does not beat anything
the best fails to beat. -/
theorem gtF_no_beat_weaker (x b r : FloatVal) (h1 : gtF x b = true) (h2 : gtF x r = false) :
    gtF b r = false := by
  cases hg : gtF b r with
  | false => rfl
  | true =>
    have := gtF_trans x b r h1 hg
    rw [this] at h2
    cases h2

theorem gtF_ge_gt_trans (x b r : FloatVal) (hx : x ≠ .nan) (hr : r ≠ .nan)
    (h1 : gtF x b = true) (h2 : gtF x r = false) : gtF r b = true := by
  rcases gtF_total3 r x hr hx with h | h | h
  · exact gtF_trans r x b h h1
  · rw [h] at h2
    exact Bool.noConfusion h2
  · rw [h]
    exact h1

theorem gtF_no_beat_through (x b r : FloatVal) (h1 : gtF x b = false) (h2 : gtF r b = true) :
    gtF x r = false := by
  cases hg : gtF x r with
  | false => rfl
  | true =>
    have := gtF_trans x r b hg h2
    rw [this] at h1
    cases h1

theorem gtF_gt_of_gt_notgt (x b r : FloatVal) (hx : x ≠ .nan) (hr : r ≠ .nan)
    (h1 : gtF r b = true) (h2 : gtF x b = false) : gtF r x = true := by
  rcases gtF_total3 r x hr hx with h | h | h
  · exact h
  · have := gtF_trans x r b h h1
    rw [this] at h2
    exact Bool.noConfusion h2
  · rw [← h] at h2
    rw [h1] at h2
    exact Bool.noConfusion h2

theorem getD_mem_of_lt {α : Type} (l : List α) (i : Nat) (d : α) (h : i < l.length) :
    l.getD i d ∈ l := by
  rw [List.getD_eq_getElem l d h]
  exact List.getElem_mem h

/-- Default record used only to state list positions via getD. -/
def dfltRec : Record := ⟨⟨1, 1, 1, 0, 0⟩, "", "", "", "", ""⟩

theorem pyMaxByAux_spec (key : Record → FloatVal) (xs : List Record) (best : Record)
    (hnn : ∀ r ∈ best :: xs, key r ≠ .nan) :
    ∃ m, m < (best :: xs).length ∧
      pyMaxByAux key best xs = (best :: xs).getD m dfltRec ∧
      (∀ i, i < (best :: xs).length →
        gtF (key ((best :: xs).getD i dfltRec)) (key ((best :: xs).getD m dfltRec)) = false) ∧
      (∀ i, i < m →
        gtF (key ((best :: xs).getD m dfltRec)) (key ((best :: xs).getD i dfltRec)) = true) := by
  induction xs generalizing best with
  | nil =>
    refine ⟨0, by simp, rfl, ?_, by intro i hi; omega⟩
    intro i hi
    simp only [List.length_cons, List.length_nil] at hi
    have hz : i = 0 := by omega
    subst hz
    simp only [List.getD_cons_zero]
    exact gtF_irrefl (key best)
  | cons x xs ih =>
    by_cases hgt : gtF (key x) (key best) = true
    · have hnn2 : ∀ r ∈ x :: xs, key r ≠ .nan :=
        fun r hr => hnn r (List.mem_cons_of_mem best hr)
      obtain ⟨m, hm, hres, hnb, hfirst⟩ := ih x hnn2
      refine ⟨m + 1, by simpa using Nat.succ_lt_succ hm, ?_, ?_, ?_⟩
      · simp only [pyMaxByAux]
        rw [if_pos hgt, hres]
        simp only [List.getD_cons_succ]
      · intro i hi
        simp only [List.getD_cons_succ]
        cases i with
        | zero =>
          simp only [List.getD_cons_zero]
          refine gtF_no_beat_weaker (key x) (key best) _ hgt ?_
          have := hnb 0 (by simp)
          simpa only [List.getD_cons_zero] using this
        | succ i2 =>
          simp only [List.getD_cons_succ]
          have hi2 : i2 < (x :: xs).length := by
            simp only [List.length_cons] at hi ⊢
            omega
          exact hnb i2 hi2
      · intro i hi
        simp only [List.getD_cons_succ]
        cases i with
        | zero =>
          simp only [List.getD_cons_zero]
          refine gtF_ge_gt_trans (key x) (key best) _ (hnn2 x (by simp))
            (hnn2 _ (getD_mem_of_lt (x :: xs) m dfltRec hm)) hgt ?_
          have := hnb 0 (by simp)
          simpa only [List.getD_cons_zero] using this
        | succ i2 =>
          simp only [List.getD_cons_succ]
          exact hfirst i2 (by omega)
    · have hgt2 : gtF (key x) (key best) = false := by
        cases hb : gtF (key x) (key best) with
        | false => rfl
        | true => exact absurd hb hgt
      have hnn2 : ∀ r ∈ best :: xs, key r ≠ .nan := by
        intro r hr
        rcases List.mem_cons.mp hr with h | h
        · exact hnn r (by rw [h]; exact List.mem_cons_self best (x :: xs))
        · exact hnn r (List.mem_cons_of_mem best (List.mem_cons_of_mem x h))
      obtain ⟨m, hm, hres, hnb, hfirst⟩ := ih best hnn2
      cases m with
      | zero =>
        refine ⟨0, by simp, ?_, ?_, by intro i hi; omega⟩
        · simp only [pyMaxByAux]
          rw [if_neg hgt, hres]
          simp only [List.getD_cons_zero]
        · intro i hi
          simp only [List.getD_cons_zero] at *
          cases i with
          | zero =>
            simp only [List.getD_cons_zero]
            exact gtF_irrefl (key best)
          | succ i2 =>
            cases i2 with
            | zero =>
              simp only [List.getD_cons_succ, List.getD_cons_zero]
              exact hgt2
            | succ i3 =>
              simp only [List.getD_cons_succ]
              have hi3 : i3 + 1 < (best :: xs).length := by
                simp only [List.length_cons] at hi ⊢
                omega
              have := hnb (i3 + 1) hi3
              simpa only [List.getD_cons_succ, List.getD_cons_zero] using this
      | succ m2 =>
        have hm2 : m2 + 2 < (best :: x :: xs).length := by
          simp only [List.length_cons] at hm ⊢
          omega
        refine ⟨m2 + 2, hm2, ?_, ?_, ?_⟩
        · simp only [pyMaxByAux]
          rw [if_neg hgt, hres]
          simp only [List.getD_cons_succ]
        · intro i hi
          simp only [List.getD_cons_succ]
          cases i with
          | zero =>
            simp only [List.getD_cons_zero]
            have := hnb 0 (by simp)
            simpa only [List.getD_cons_succ, List.getD_cons_zero] using this
          | succ i2 =>
            cases i2 with
            | zero =>
              simp only [List.getD_cons_succ, List.getD_cons_zero]
              have hRb := hfirst 0 (by omega)
              simp only [List.getD_cons_succ, List.getD_cons_zero] at hRb
              exact gtF_no_beat_through (key x) (key best) _ hgt2 hRb
            | succ i3 =>
              simp only [List.getD_cons_succ]
              have hi3 : i3 + 1 < (best :: xs).length := by
                simp only [List.length_cons] at hi ⊢
                omega
              have := hnb (i3 + 1) hi3
              simpa only [List.getD_cons_succ] using this
        · intro i hi
          simp only [List.getD_cons_succ]
          cases i with
          | zero =>
            simp only [List.getD_cons_zero]
            have := hfirst 0 (by omega)
            simpa only [List.getD_cons_succ, List.getD_cons_zero] using this
          | succ i2 =>
            cases i2 with
            | zero =>
              simp only [List.getD_cons_succ, List.getD_cons_zero]
              have hRb := hfirst 0 (by omega)
              simp only [List.getD_cons_succ, List.getD_cons_zero] at hRb
              have hxnn : key x ≠ .nan :=
                hnn x (List.mem_cons_of_mem best (List.mem_cons_self x xs))
              have hm2lt : m2 < xs.length := by
                simp only [List.length_cons] at hm
                omega
              have hrnn : key (xs.getD m2 dfltRec) ≠ .nan :=
                hnn2 _ (List.mem_cons_of_mem best (getD_mem_of_lt xs m2 dfltRec hm2lt))
              exact gtF_gt_of_gt_notgt (key x) (key best) _ hxnn hrnn hRb hgt2
            | succ i3 =>
              simp only [List.getD_cons_succ]
              have := hfirst (i3 + 1) (by omega)
              simpa only [List.getD_cons_succ] using this

/-- The key Python max computes per entry: float(r.uvi_str), defined for
every record the parser produced. -/
def uviKey (r : Record) : FloatVal := (pyParseFloat r.uvi_str).getD .nan

theorem mapM_parse_isSome (l : List Record)
    (h : ∀ r ∈ l, (pyParseFloat r.uvi_str).isSome) :
    (l.mapM (fun r => pyParseFloat r.uvi_str)).isSome := by
  induction l with
  | nil => rfl
  | cons r rs ih =>
    obtain ⟨v, hv⟩ := Option.isSome_iff_exists.mp (h r (List.mem_cons_self r rs))
    obtain ⟨vs, hvs⟩ :=
      Option.isSome_iff_exists.mp (ih (fun x hx => h x (List.mem_cons_of_mem r hx)))
    rw [List.mapM_cons, hv, hvs]
    rfl

theorem reduceDay_spec (entries : List Record) (hne : entries ≠ [])
    (hsome : ∀ r ∈ entries, (pyParseFloat r.uvi_str).isSome)
    (hnn : ∀ r ∈ entries, pyParseFloat r.uvi_str ≠ some .nan) :
    ∃ m, m < entries.length ∧
      reduceDay entries =
        some { entries.getD m dfltRec with inst_code := RIVM_HISTORICAL_INST_CODE } ∧
      (∀ i, i < entries.length →
        gtF (uviKey (entries.getD i dfltRec)) (uviKey (entries.getD m dfltRec)) = false) ∧
      (∀ i, i < m →
        gtF (uviKey (entries.getD m dfltRec)) (uviKey (entries.getD i dfltRec)) = true) := by
  match entries, hne with
  | x :: xs, _ =>
    have hkey : ∀ r ∈ x :: xs, uviKey r ≠ .nan := by
      intro r hr
      obtain ⟨v, hv⟩ := Option.isSome_iff_exists.mp (hsome r hr)
      have hvne : v ≠ .nan := by
        intro hv2
        exact hnn r hr (by rw [hv, hv2])
      simp [uviKey, hv, hvne]
    obtain ⟨vs, hvs⟩ :=
      Option.isSome_iff_exists.mp (mapM_parse_isSome (x :: xs) hsome)
    obtain ⟨m, hm, hres, hnb, hfirst⟩ :=
      pyMaxByAux_spec (fun r => (pyParseFloat r.uvi_str).getD .nan) xs x hkey
    refine ⟨m, hm, ?_, hnb, hfirst⟩
    simp only [reduceDay, pyMaxByFloat, hvs, hres]

theorem keptAndParsed_eq (line : String) (r : Record) (h : keptAndParsed line = some r) :
    parse_existing_data_line (pyStrip line) = some r := by
  simp only [keptAndParsed] at h
  split at h
  · exact absurd h (by simp)
  · exact h

theorem parse_uvi_isSome (line : String) (r : Record)
    (h : parse_existing_data_line line = some r) : (pyParseFloat r.uvi_str).isSome := by
  rw [parse_existing_data_line.eq_def] at h
  match hs : pySplit (pyStrip line) with
  | [] => rw [hs] at h; simp at h
  | [d] => rw [hs] at h; simp at h
  | [d, t] => rw [hs] at h; simp at h
  | [d, t, td] => rw [hs] at h; simp at h
  | d :: t :: td :: uv :: rest =>
    rw [hs] at h
    dsimp only at h
    match hdt : sliceDateTime d t, huv : pyParseFloat uv, htd : pyParseFloat td with
    | some dt, some v1, some v2 =>
      rw [hdt] at h
      dsimp only at h
      rw [huv, htd] at h
      dsimp only at h
      have hr : r.uvi_str = uv := by
        injection h with h2
        rw [← h2]
      rw [hr, huv]
      rfl
    | none, _, _ => rw [hdt] at h; simp at h
    | some dt, none, _ => rw [hdt] at h; dsimp only at h; rw [huv] at h; simp at h
    | some dt, some v1, none =>
      rw [hdt] at h; dsimp only at h; rw [huv, htd] at h; simp at h

theorem keptAndParsed_uvi_isSome (line : String) (r : Record)
    (h : keptAndParsed line = some r) : (pyParseFloat r.uvi_str).isSome :=
  parse_uvi_isSome (pyStrip line) r (keptAndParsed_eq line r h)

/-! Invariants of the grouping loop. -/

theorem insertGroup_mem (gs : List (String × List Record)) (k : String) (r x : Record)
    (g : String × List Record) (hg : g ∈ insertGroup gs k r) (hx : x ∈ g.2) :
    (∃ g0 ∈ gs, x ∈ g0.2) ∨ x = r := by
  induction gs with
  | nil =>
    simp only [insertGroup, List.mem_singleton] at hg
    rw [hg] at hx
    simp only [List.mem_singleton] at hx
    exact Or.inr hx
  | cons g0 gs ih =>
    obtain ⟨k0, rs⟩ := g0
    simp only [insertGroup] at hg
    by_cases hk : k0 = k
    · rw [if_pos hk] at hg
      rcases List.mem_cons.mp hg with hg | hg
      · rw [hg] at hx
        rcases List.mem_append.mp hx with hx | hx
        · exact Or.inl ⟨(k0, rs), List.mem_cons_self _ _, hx⟩
        · simp only [List.mem_singleton] at hx
          exact Or.inr hx
      · exact Or.inl ⟨g, List.mem_cons_of_mem _ hg, hx⟩
    · rw [if_neg hk] at hg
      rcases List.mem_cons.mp hg with hg | hg
      · rw [hg] at hx
        exact Or.inl ⟨(k0, rs), List.mem_cons_self _ _, hx⟩
      · rcases ih hg with ⟨g1, hg1, hxg⟩ | hxr
        · exact Or.inl ⟨g1, List.mem_cons_of_mem _ hg1, hxg⟩
        · exact Or.inr hxr

theorem insertGroup_nonempty (gs : List (String × List Record)) (k : String) (r : Record)
    (hinv : ∀ g ∈ gs, g.2 ≠ []) : ∀ g ∈ insertGroup gs k r, g.2 ≠ [] := by
  induction gs with
  | nil =>
    intro g hg
    simp only [insertGroup, List.mem_singleton] at hg
    rw [hg]
    simp
  | cons g0 gs ih =>
    obtain ⟨k0, rs⟩ := g0
    intro g hg
    simp only [insertGroup] at hg
    by_cases hk : k0 = k
    · rw [if_pos hk] at hg
      rcases List.mem_cons.mp hg with hg | hg
      · rw [hg]
        simp
      · exact hinv g (List.mem_cons_of_mem _ hg)
    · rw [if_neg hk] at hg
      rcases List.mem_cons.mp hg with hg | hg
      · rw [hg]
        exact hinv (k0, rs) (List.mem_cons_self _ _)
      · exact ih (fun g2 hg2 => hinv g2 (List.mem_cons_of_mem _ hg2)) g hg

theorem insertGroup_date (gs : List (String × List Record)) (k : String) (r : Record)
    (hr : r.date_str = k) (hinv : ∀ g ∈ gs, ∀ x ∈ g.2, x.date_str = g.1) :
    ∀ g ∈ insertGroup gs k r, ∀ x ∈ g.2, x.date_str = g.1 := by
  induction gs with
  | nil =>
    intro g hg x hx
    simp only [insertGroup, List.mem_singleton] at hg
    rw [hg] at hx ⊢
    simp only [List.mem_singleton] at hx
    rw [hx]
    exact hr
  | cons g0 gs ih =>
    obtain ⟨k0, rs⟩ := g0
    intro g hg x hx
    simp only [insertGroup] at hg
    by_cases hk : k0 = k
    · rw [if_pos hk] at hg
      rcases List.mem_cons.mp hg with hg | hg
      · rw [hg] at hx ⊢
        rcases List.mem_append.mp hx with hx | hx
        · exact hinv (k0, rs) (List.mem_cons_self _ _) x hx
        · simp only [List.mem_singleton] at hx
          rw [hx]
          rw [hr, hk]
      · exact hinv g (List.mem_cons_of_mem _ hg) x hx
    · rw [if_neg hk] at hg
      rcases List.mem_cons.mp hg with hg | hg
      · rw [hg] at hx ⊢
        exact hinv (k0, rs) (List.mem_cons_self _ _) x hx
      · exact ih (fun g2 hg2 => hinv g2 (List.mem_cons_of_mem _ hg2)) g hg x hx

theorem insertGroup_keys (gs : List (String × List Record)) (k : String) (r : Record) :
    (insertGroup gs k r).map Prod.fst = gs.map Prod.fst ++
      (if k ∈ gs.map Prod.fst then [] else [k]) := by
  induction gs with
  | nil => simp [insertGroup]
  | cons g0 gs ih =>
    obtain ⟨k0, rs⟩ := g0
    simp only [insertGroup]
    by_cases hk : k0 = k
    · rw [if_pos hk]
      have hmem : k ∈ ((k0, rs) :: gs).map Prod.fst := by
        simp [hk.symm]
      rw [if_pos hmem]
      simp
    · rw [if_neg hk]
      simp only [List.map_cons, List.cons_append, ih]
      have hne : (k ∈ (k0 :: gs.map Prod.fst)) ↔ (k ∈ gs.map Prod.fst) := by
        constructor
        · intro hm
          rcases List.mem_cons.mp hm with hm | hm
          · exact absurd hm.symm hk
          · exact hm
        · exact List.mem_cons_of_mem k0
      by_cases hm : k ∈ gs.map Prod.fst
      · rw [if_pos hm, if_pos (hne.mpr hm)]
      · rw [if_neg hm, if_neg (fun hcon => hm (hne.mp hcon))]

theorem insertGroup_nodup (gs : List (String × List Record)) (k : String) (r : Record)
    (hinv : (gs.map Prod.fst).Nodup) : ((insertGroup gs k r).map Prod.fst).Nodup := by
  rw [insertGroup_keys]
  by_cases hm : k ∈ gs.map Prod.fst
  · rw [if_pos hm]
    simpa using hinv
  · rw [if_neg hm]
    refine List.Nodup.append hinv (by simp) ?_
    intro a ha hb
    simp only [List.mem_singleton] at hb
    exact hm (hb ▸ ha)

/-- Decidable per-line form of the no-NaN side condition: the line is
unkept, or its parsed UVI is not NaN. -/
def noNaNLine (line : String) : Bool :=
  match keptAndParsed line with
  | none => true
  | some r => !(pyParseFloat r.uvi_str == some .nan)

theorem groupFold_invariant (P : Record → Prop) (lines : List String)
    (acc : List (String × List Record))
    (h1 : ∀ g ∈ acc, g.2 ≠ []) (h2 : ∀ g ∈ acc, ∀ x ∈ g.2, x.date_str = g.1)
    (h3 : (acc.map Prod.fst).Nodup) (h4 : ∀ g ∈ acc, ∀ x ∈ g.2, P x)
    (hlines : ∀ line ∈ lines, ∀ r, keptAndParsed line = some r → P r) :
    (∀ g ∈ lines.foldl (fun groups line =>
        match keptAndParsed line with
        | none => groups
        | some r => insertGroup groups r.date_str r) acc,
      g.2 ≠ [] ∧ (∀ x ∈ g.2, x.date_str = g.1) ∧ (∀ x ∈ g.2, P x)) ∧
    ((lines.foldl (fun groups line =>
        match keptAndParsed line with
        | none => groups
        | some r => insertGroup groups r.date_str r) acc).map Prod.fst).Nodup := by
  induction lines generalizing acc with
  | nil =>
    simp only [List.foldl_nil]
    exact ⟨fun g hgm => ⟨h1 g hgm, h2 g hgm, h4 g hgm⟩, h3⟩
  | cons line rest ih =>
    simp only [List.foldl_cons]
    have hrest : ∀ l ∈ rest, ∀ r, keptAndParsed l = some r → P r :=
      fun l hl => hlines l (List.mem_cons_of_mem line hl)
    cases hk : keptAndParsed line with
    | none => exact ih acc h1 h2 h3 h4 hrest
    | some r =>
      refine ih (insertGroup acc r.date_str r)
        (insertGroup_nonempty acc r.date_str r h1)
        (insertGroup_date acc r.date_str r rfl h2)
        (insertGroup_nodup acc r.date_str r h3) ?_ hrest
      intro g hgm x hx
      rcases insertGroup_mem acc r.date_str r x g hgm hx with ⟨g0, hg0, hxg⟩ | hxr
      · exact h4 g0 hg0 x hxg
      · rw [hxr]
        exact hlines line (List.mem_cons_self line rest) r hk

theorem groupByDay_invariant (P : Record → Prop) (lines : List String)
    (hlines : ∀ line ∈ lines, ∀ r, keptAndParsed line = some r → P r) :
    (∀ g ∈ groupByDay lines,
      g.2 ≠ [] ∧ (∀ x ∈ g.2, x.date_str = g.1) ∧ (∀ x ∈ g.2, P x)) ∧
    ((groupByDay lines).map Prod.fst).Nodup :=
  groupFold_invariant P lines [] (by simp) (by simp) (by simp) (by simp) hlines

theorem filterMap_length_of_isSome {α β : Type} (f : α → Option β) (l : List α)
    (h : ∀ x ∈ l, (f x).isSome) : (l.filterMap f).length = l.length := by
  induction l with
  | nil => rfl
  | cons x xs ih =>
    obtain ⟨b, hb⟩ := Option.isSome_iff_exists.mp (h x (List.mem_cons_self x xs))
    rw [List.filterMap_cons, hb]
    simp only [List.length_cons]
    rw [ih (fun y hy => h y (List.mem_cons_of_mem x hy))]

/-- C3 as amended.  Provided no kept line of the year file parses to a NaN
UVI — float() does accept the text nan, and a NaN entry derails the
comparison — the reduction emits exactly one record per day group (one
per calendar day with at least one successfully parsed line, day keys
distinct, members grouped by their date token): the record at the first
position attaining the maximum numeric uvi of its group, relabelled with
the fixed historical-peak tag and otherwise identical field for field. -/
theorem C3_daily_peak (lines : List String)
    (H : ∀ line ∈ lines, noNaNLine line = true) :
    (reduce_year lines).length = (groupByDay lines).length ∧
    ((groupByDay lines).map Prod.fst).Nodup ∧
    ∀ g ∈ groupByDay lines, g.2 ≠ [] ∧ (∀ r ∈ g.2, r.date_str = g.1) ∧
      ∃ m, m < g.2.length ∧
        reduceDay g.2 =
          some { g.2.getD m dfltRec with inst_code := RIVM_HISTORICAL_INST_CODE } ∧
        (∀ i, i < g.2.length →
          gtF (uviKey (g.2.getD i dfltRec)) (uviKey (g.2.getD m dfltRec)) = false) ∧
        (∀ i, i < m →
          gtF (uviKey (g.2.getD m dfltRec)) (uviKey (g.2.getD i dfltRec)) = true) := by
  have hP : ∀ line ∈ lines, ∀ r, keptAndParsed line = some r →
      ((pyParseFloat r.uvi_str).isSome ∧ pyParseFloat r.uvi_str ≠ some .nan) := by
    intro line hl r hr
    refine ⟨keptAndParsed_uvi_isSome line r hr, ?_⟩
    have hno := H line hl
    simp only [noNaNLine, hr] at hno
    intro he
    rw [he] at hno
    simp at hno
  obtain ⟨hg, hnodup⟩ := groupByDay_invariant _ lines hP
  refine ⟨?_, hnodup, ?_⟩
  · refine filterMap_length_of_isSome _ _ ?_
    intro g hgm
    obtain ⟨hne, hdate, hPg⟩ := hg g hgm
    obtain ⟨m, _, hres, _, _⟩ := reduceDay_spec g.2 hne
      (fun r hr => (hPg r hr).1) (fun r hr => (hPg r hr).2)
    rw [hres]
    rfl
  · intro g hgm
    obtain ⟨hne, hdate, hPg⟩ := hg g hgm
    exact ⟨hne, hdate, reduceDay_spec g.2 hne
      (fun r hr => (hPg r hr).1) (fun r hr => (hPg r hr).2)⟩

/-- Witness for C3: the specification's own example, three same-day lines
with UVI 2.1, 5.8, 3.0, reduces to one record per its single day
group. -/
theorem C3_daily_peak_witness :
    (reduce_year ["20230601 1000 0.0 2.1", "20230601 1200 0.0 5.8", "20230601 1400 0.0 3.0"]).length =
      (groupByDay ["20230601 1000 0.0 2.1", "20230601 1200 0.0 5.8", "20230601 1400 0.0 3.0"]).length :=
  (C3_daily_peak ["20230601 1000 0.0 2.1", "20230601 1200 0.0 5.8", "20230601 1400 0.0 3.0"]
    (by set_option maxRecDepth 400000 in with_unfolding_all decide)).1

/-- C3, counterexample to the claim as stated.  The text nan passes the
parser's float() validation, and Python max never replaces a NaN best:
for a day whose first entry has UVI nan and whose second has UVI 5.0, the
reduction emits the NaN record, which does not attain the maximum numeric
uvi of the group — the 5.0 entry is not numerically below it. -/
theorem C3_counterexample :
    reduce_year ["20230601 1100 1.0 nan", "20230601 1200 1.0 5.0"] =
      [⟨⟨2023, 6, 1, 11, 0⟩, "20230601", "1100", "1.0", "nan", "RIVM_PEAK"⟩] ∧
    keptAndParsed "20230601 1200 1.0 5.0" =
      some ⟨⟨2023, 6, 1, 12, 0⟩, "20230601", "1200", "1.0", "5.0", "RIVM_HIST"⟩ ∧
    pyParseFloat "nan" = some .nan ∧
    pyParseFloat "5.0" = some (.fin 5) ∧
    leNum (.fin 5) .nan = false := by
  set_option maxRecDepth 400000 in with_unfolding_all decide
